import Mathlib

/-!
Verification development for the quasar streaming metric-aggregation pipeline.

The embedding models, from the repository sources:
  * sequence_ext/io/metrics.py      (MetricFrame, _coerce_like, append, merge, _write)
  * sequence_ext/io/writers.py      (ResultWriter.write)
  * sequence_ext/orchestrator/orchestrator.py
                                    (_aggregate_timeslice, Orchestrator.run)

Numeric conventions of the embedding:
  * The main model reads the arithmetic of the pipeline exactly, over ℚ.
    Column values produced by the mock physical model involve sin/cos of 2*pi*t,
    which are transcendental and therefore abstracted by a parameter structure
    TrigModel; every theorem quantifies over that parameter, so each theorem
    holds for the true sinusoidal model in particular.
  * A second model (the FloatModel section below) models the IEEE-754 binary32 /
    binary64 rounding that the source applies to the time/bin computations
    (numpy float32 sample times, float64 bin edges).  It represents each float
    exactly as an integer multiple of 2 ^ (-FSCALE).  It is used for the claims
    whose truth is sensitive to rounding of the time base.
-/

set_option maxRecDepth 100000
set_option maxHeartbeats 4000000

/-- Column dtypes of the model: pandas float64, pandas string dtype, and the
object dtype that pandas gives untyped columns (for example a column assigned
from a Python string literal, or the columns of an empty `DataFrame(columns=...)`). -/
inductive Dtype where
  | f64
  | stringDt
  | obj
deriving DecidableEq, Repr

/-- A cell value: a float64 number (read exactly, as a rational), a string,
or the null marker (NaN / NA). -/
inductive Val where
  | num (q : ℚ)
  | str (s : String)
  | na
deriving DecidableEq, Repr

/-- A column header: column name together with its dtype. -/
abbrev Header := String × Dtype

/-- A row is an association list from column names to cell values, ordered like
the columns of the table holding it. -/
abbrev Row := List (String × Val)

/-- A pandas DataFrame of this pipeline: ordered column headers and rows.
Rows are association lists keyed by the column names (the sources never build
duplicate column labels). -/
structure Table where
  cols : List Header
  rows : List Row
deriving DecidableEq, Repr

/-- Column names of a table, in order. -/
def Table.names (t : Table) : List String := t.cols.map Prod.fst

/-- pandas `df.empty` for the frames this pipeline builds: no rows. -/
def Table.isEmptyT (t : Table) : Bool := t.rows.isEmpty

/-- Source `_empty_physical`: empty physical table with explicit dtypes. -/
def emptyPhysical : Table :=
  ⟨[("time", .f64), ("loss_dB", .f64), ("bsm_vis", .f64), ("dark_rate", .f64)], []⟩

/-- Source `_empty_network`: empty network table with explicit dtypes. -/
def emptyNetwork : Table :=
  ⟨[("time", .f64), ("path", .stringDt), ("util", .f64), ("latency_ns", .f64)], []⟩

/-- Source `_empty_protocol`: empty protocol table with explicit dtypes. -/
def emptyProtocol : Table :=
  ⟨[("time", .f64), ("qber", .f64), ("sifted_rate", .f64), ("ec_leak", .f64)], []⟩

/-- Source `_empty_security`: empty security table with explicit dtypes. -/
def emptySecurity : Table :=
  ⟨[("time", .f64), ("secret_rate", .f64), ("epsilon", .f64)], []⟩

/-- Can a single cell be cast by `astype` to the given dtype?  A numeric cast
succeeds on numbers and nulls; casting to the pandas string dtype succeeds on
every cell (Python stringification); obj is never a cast target in the flow. -/
def castOK : Dtype → Val → Bool
  | .f64, .num _ => true
  | .f64, .na => true
  | .f64, .str _ => false
  | .stringDt, _ => true
  | .obj, _ => true

/-- Cast of a single cell to a dtype (applied only when the whole column is
castable, matching the per-column `astype` in `_coerce_like`).  The exact text
pandas renders for a number cast to string differs from `toString`; no claim
depends on that rendering. -/
def castVal : Dtype → Val → Val
  | .f64, v => v
  | .stringDt, .num q => .str (toString q)
  | .stringDt, v => v
  | .obj, v => v

/-- Value of column `c` in a row after reindexing: present value, or the null
marker NaN when the row has no such column. -/
def cellAt (c : String) (r : Row) : Val := (List.lookup c r).getD .na

/-- Whether the whole reindexed column `c` of `df` can be cast to dtype `dt`
(the try/except around `astype` in `_coerce_like` succeeds). -/
def colCastable (df : Table) (c : String) (dt : Dtype) : Bool :=
  df.rows.all fun r => castOK dt (cellAt c r)

/-- One reindexed+cast row of `_coerce_like`: for each reference column take the
incoming value under that name (null if structurally missing), cast when the
whole column is castable, otherwise leave the column's values unchanged. -/
def coerceRow (df : Table) (refCols : List Header) (r : Row) : Row :=
  refCols.map fun cd =>
    (cd.1, if colCastable df cd.1 cd.2 then castVal cd.2 (cellAt cd.1 r) else cellAt cd.1 r)

/-- Source `_coerce_like(df, ref)`: reindex `df` to the columns of `ref` in
order (missing columns become null, extra columns are dropped), then cast each
column to the reference dtype, keeping a column as-is if its cast raises. -/
def coerceLike (df ref : Table) : Table :=
  { cols := ref.cols.map fun cd =>
      (cd.1, if colCastable df cd.1 cd.2 then cd.2 else (List.lookup cd.1 df.cols).getD cd.2)
    rows := df.rows.map (coerceRow df ref.cols) }

/-- Source dataclass `MetricFrame`, with its four default-empty tables. -/
structure MetricFrame where
  physical : Table := emptyPhysical
  network : Table := emptyNetwork
  protocol : Table := emptyProtocol
  security : Table := emptySecurity
deriving DecidableEq, Repr

/-- One per-category step of `MetricFrame.append`: skip empty input, otherwise
coerce to the stored table and either replace an empty stored table
(`reset_index(drop=True)`) or concatenate with `ignore_index=True`.  pandas
`concat` of two frames with identical column labels keeps those labels; the
stored headers are kept here (no claim exercises the dtype upcast that pandas
would perform if the two pieces disagreed on a dtype). -/
def appendStep (stored : Table) : Option Table → Table
  | none => stored
  | some t =>
    if t.rows = [] then stored
    else
      let src := coerceLike t stored
      if stored.rows = [] then src
      else { cols := stored.cols, rows := stored.rows ++ src.rows }

/-- Source `MetricFrame.append(*, physical=None, network=None, protocol=None,
security=None)`: the four categories are updated independently. -/
def MetricFrame.append (mf : MetricFrame)
    (physical : Option Table := none) (network : Option Table := none)
    (protocol : Option Table := none) (security : Option Table := none) :
    MetricFrame :=
  { physical := appendStep mf.physical physical
    network := appendStep mf.network network
    protocol := appendStep mf.protocol protocol
    security := appendStep mf.security security }

/-- Source `MetricFrame.merge(others)`: fold `append` over `[self] ++ others`
starting from a fresh default `MetricFrame()`. -/
def MetricFrame.merge (mf : MetricFrame) (others : List MetricFrame) : MetricFrame :=
  (mf :: others).foldl
    (fun out f => out.append (some f.physical) (some f.network) (some f.protocol) (some f.security))
    {}

/-- The four metric categories. -/
inductive Category where
  | physical
  | network
  | protocol
  | security
deriving DecidableEq, Repr

/-- Table of a given category inside a store. -/
def MetricFrame.tableOf (mf : MetricFrame) : Category → Table
  | .physical => mf.physical
  | .network => mf.network
  | .protocol => mf.protocol
  | .security => mf.security

/-- Default (canonical, empty) table of a category, as built by `MetricFrame()`. -/
def defaultTable : Category → Table
  | .physical => emptyPhysical
  | .network => emptyNetwork
  | .protocol => emptyProtocol
  | .security => emptySecurity

/-- Canonical column-name schema of a category. -/
def schemaNames (c : Category) : List String := (defaultTable c).names

/-- `append` restricted to a single category slot (the other three arguments
left at their `None` default). -/
def appendCat (mf : MetricFrame) : Category → Table → MetricFrame
  | .physical, t => mf.append (some t) none none none
  | .network, t => mf.append none (some t) none none
  | .protocol, t => mf.append none none (some t) none
  | .security, t => mf.append none none none (some t)


/-- Python `round` on a float with no digits argument: round half to even,
returning an integer.  Modelled exactly on ℚ. -/
def pyRound (q : ℚ) : ℤ :=
  let f := ⌊q⌋
  let r := q - f
  if r < 1/2 then f else if 1/2 < r then f + 1 else if f % 2 = 0 then f else f + 1

/-- Abstraction of the two transcendental functions of the mock physical model:
`sin2pi t` stands for sin(2*pi*t) and `cos2pi t` for cos(2*pi*t), which have no
computable exact value over ℚ.  Every theorem below quantifies over this
structure, so it holds for the true sinusoids in particular. -/
structure TrigModel where
  sin2pi : ℚ → ℚ
  cos2pi : ℚ → ℚ

/-- loss_dB = 15.0 + 0.2*sin(2*pi*t). -/
def lossOf (g : TrigModel) (t : ℚ) : ℚ := 15 + (1/5) * g.sin2pi t

/-- bsm_vis = 0.96 + 0.02*cos(2*pi*t). -/
def visOf (g : TrigModel) (t : ℚ) : ℚ := 24/25 + (1/50) * g.cos2pi t

/-- dark_rate = 1e-6 (constant; the source stores the float32 image of 1e-6,
whose exact value differs from 1/1000000 by less than 2^-44; no claim depends
on that difference). -/
def darkOf : ℚ := 1/1000000

/-- qber = 0.02 + 0.01*(1 - bsm_vis). -/
def qberOf (g : TrigModel) (t : ℚ) : ℚ := 1/50 + (1/100) * (1 - visOf g t)

/-- sifted = max(0, 5e6*(1 - qber)). -/
def siftedOf (g : TrigModel) (t : ℚ) : ℚ := max 0 (5000000 * (1 - qberOf g t))

/-- ec_leak = 0.1*sifted. -/
def ecLeakOf (g : TrigModel) (t : ℚ) : ℚ := (1/10) * siftedOf g t

/-- secret = max(0, sifted*(1 - 1.2*qber) - ec_leak). -/
def secretOf (g : TrigModel) (t : ℚ) : ℚ :=
  max 0 (siftedOf g t * (1 - (6/5) * qberOf g t) - ecLeakOf g t)

/-- epsilon = 1e-10 (constant float32 in the source; same remark as dark_rate). -/
def epsOf : ℚ := 1/10000000000

/-- Sample times of one slice: `t0 + i/rate` for `i < n`
(`np.arange(n)/rate + t0`, read exactly). -/
def sampleTimes (t0 : ℚ) (rate : ℤ) (n : ℕ) : List ℚ :=
  (List.range n).map fun i : ℕ => t0 + (i : ℚ) / (rate : ℚ)

/-- Bin edge of a sample time:
`floor((t - t0)/bin_sec) * bin_sec + t0`, read exactly. -/
def binEdge (t0 binSec t : ℚ) : ℚ := ⌊(t - t0) / binSec⌋ * binSec + t0

/-- Insert a key into an ascending duplicate-free key list, keeping it
ascending and duplicate-free. -/
def insKey (k : ℚ) : List ℚ → List ℚ
  | [] => [k]
  | x :: xs => if k < x then k :: x :: xs else if k = x then x :: xs else x :: insKey k xs

/-- The distinct group keys of a pandas `groupby(sort=True)`, in ascending
order. -/
def groupKeys (ks : List ℚ) : List ℚ := ks.foldl (fun acc k => insKey k acc) []

/-- Arithmetic mean of a list of numbers (pandas `mean` on a NaN-free float
column). -/
def qmean (l : List ℚ) : ℚ := l.sum / (l.length : ℚ)

/-- The members of one bin: the sample times of the slice whose edge is `k`,
in arrival order. -/
def binMembers (t0 binSec : ℚ) (ts : List ℚ) (k : ℚ) : List ℚ :=
  ts.filter fun t => binEdge t0 binSec t = k

/-- The empty frames returned by `_aggregate_timeslice` when
`int(round(rate*chunk_sec)) <= 0` (`pd.DataFrame(columns=[...])`, object
dtype, no rows). -/
def emptySlice : Table × Table × Table × Table :=
  (⟨[("time", .obj), ("loss_dB", .obj), ("bsm_vis", .obj), ("dark_rate", .obj)], []⟩,
   ⟨[("time", .obj), ("path", .obj), ("util", .obj), ("latency_ns", .obj)], []⟩,
   ⟨[("time", .obj), ("qber", .obj), ("sifted_rate", .obj), ("ec_leak", .obj)], []⟩,
   ⟨[("time", .obj), ("secret_rate", .obj), ("epsilon", .obj)], []⟩)

/-- Source `_aggregate_timeslice(t0, rate, chunk_sec, bin_sec)`: generate the
mock slice `[t0, t0+chunk_sec)` and aggregate it into `bin_sec` buckets; the
groupby emits one row per distinct bin edge in ascending key order, averaging
the numeric columns; the network `path` column is assigned the constant label
after the mean (hence it sits last, in object dtype, before `append` reindexes
it).  Aggregated numeric columns carry pandas float64 dtype. -/
def aggregateTimeslice (g : TrigModel) (t0 : ℚ) (rate : ℤ) (chunkSec binSec : ℚ) :
    Table × Table × Table × Table :=
  let n : ℤ := pyRound ((rate : ℚ) * chunkSec)
  if n ≤ 0 then emptySlice
  else
    let ts := sampleTimes t0 rate n.toNat
    let keys := groupKeys (ts.map (binEdge t0 binSec))
    let grp := binMembers t0 binSec ts
    let phys : Table :=
      ⟨[("time", .f64), ("loss_dB", .f64), ("bsm_vis", .f64), ("dark_rate", .f64)],
       keys.map fun k =>
         [("time", .num k), ("loss_dB", .num (qmean ((grp k).map (lossOf g)))),
          ("bsm_vis", .num (qmean ((grp k).map (visOf g)))),
          ("dark_rate", .num (qmean ((grp k).map fun _ => darkOf)))]⟩
    let net : Table :=
      ⟨[("time", .f64), ("util", .f64), ("latency_ns", .f64), ("path", .obj)],
       keys.map fun k =>
         [("time", .num k), ("util", .num (qmean ((grp k).map fun _ => (1:ℚ)/2))),
          ("latency_ns", .num (qmean ((grp k).map fun _ => (1000:ℚ)))),
          ("path", .str "A->C<-B")]⟩
    let prot : Table :=
      ⟨[("time", .f64), ("qber", .f64), ("sifted_rate", .f64), ("ec_leak", .f64)],
       keys.map fun k =>
         [("time", .num k), ("qber", .num (qmean ((grp k).map (qberOf g)))),
          ("sifted_rate", .num (qmean ((grp k).map (siftedOf g)))),
          ("ec_leak", .num (qmean ((grp k).map (ecLeakOf g))))]⟩
    let sec : Table :=
      ⟨[("time", .f64), ("secret_rate", .f64), ("epsilon", .f64)],
       keys.map fun k =>
         [("time", .num k), ("secret_rate", .num (qmean ((grp k).map (secretOf g)))),
          ("epsilon", .num (qmean ((grp k).map fun _ => epsOf)))]⟩
    (phys, net, prot, sec)

/-- Sort key of a row for `sort_values("time")`: the value of its time column
(the pipeline only ever sorts rows whose time cell is numeric). -/
def rowTime (r : Row) : ℚ :=
  match List.lookup "time" r with
  | some (.num q) => q
  | _ => 0

/-- Insert a row into a list sorted by `rowTime`, after every row of
less-or-equal key: the insertion point of a stable sort when rows arrive in
their original order. -/
def insRow (r : Row) : List Row → List Row
  | [] => [r]
  | x :: xs => if rowTime x ≤ rowTime r then x :: insRow r xs else r :: x :: xs

/-- Stable sort of rows by their time column.  The source uses
`sort_values("time", kind="mergesort")`; a stable sort's output is uniquely
determined by sortedness plus stability, so this sequential stable insertion
computes the same list as mergesort. -/
def sortRows (rows : List Row) : List Row := rows.foldl (fun acc r => insRow r acc) []

/-- Sort every category table of a store by time (the loop at the end of
`Orchestrator.run`). -/
def sortAll (mf : MetricFrame) : MetricFrame :=
  { physical := ⟨mf.physical.cols, sortRows mf.physical.rows⟩
    network := ⟨mf.network.cols, sortRows mf.network.rows⟩
    protocol := ⟨mf.protocol.cols, sortRows mf.protocol.rows⟩
    security := ⟨mf.security.cols, sortRows mf.security.rows⟩ }

/-- Source dataclass `Orchestrator` (the `output_dir` field belongs to the
persistence model below and carries no behavior in `run`). -/
structure Orchestrator where
  pulse_rate_hz : ℤ
  duration_s : ℚ
  bin_sec : ℚ := 1/1000
  chunk_sec : ℚ := 1/10

/-- The chunk loop of `Orchestrator.run`, with explicit fuel: one unfolding per
`while remaining > 0.0` iteration; `none` means the fuel was exhausted while
the loop guard still held (the Python loop does not terminate when
`chunk_sec <= 0 < remaining`, and `none` is exactly that divergence for every
fuel). -/
def runLoop (g : TrigModel) (o : Orchestrator) :
    ℕ → ℚ → ℚ → MetricFrame → Option MetricFrame
  | 0, _, remaining, mf => if 0 < remaining then none else some mf
  | fuel + 1, t0, remaining, mf =>
    if 0 < remaining then
      let cur := min o.chunk_sec remaining
      let r := aggregateTimeslice g t0 o.pulse_rate_hz cur o.bin_sec
      runLoop g o fuel (t0 + cur) (remaining - cur)
        (mf.append (some r.1) (some r.2.1) (some r.2.2.1) (some r.2.2.2))
    else some mf

/-- Fuel sufficient for every terminating run: the loop runs
ceil(duration/chunk) times when chunk_sec > 0. -/
def runFuel (o : Orchestrator) : ℕ := ⌈o.duration_s / o.chunk_sec⌉₊ + 1

/-- `Orchestrator.run` up to (but not including) the final per-category sort:
the chunked generate→aggregate→append loop from `t0 = 0.0`,
`remaining = duration_s`, on a fresh `MetricFrame()`. -/
def Orchestrator.runRaw (o : Orchestrator) (g : TrigModel) : Option MetricFrame :=
  runLoop g o (runFuel o) 0 o.duration_s {}

/-- Source `Orchestrator.run`: the chunk loop followed by one stable
`sort_values("time", kind="mergesort")` per category.  `run` performs no
validation of its parameters. -/
def Orchestrator.run (o : Orchestrator) (g : TrigModel) : Option MetricFrame :=
  (o.runRaw g).map sortAll

/-- A path on disk: destination directory plus file name.  Two artifacts
coincide exactly when both components do. -/
abbrev FilePathM := String × String

/-- Serialized artifact contents.  Both serializers of the source
(`to_parquet(index=False)`, `to_csv(index=False)`) are lossless deterministic
functions of the table, so a file's bytes are modelled by the table itself:
equal tables, identical bytes. -/
abbrev FileData := Table

/-- The files at the destination: an association list from paths to contents. -/
abbrev FState := List (FilePathM × FileData)

/-- Store contents under a path, replacing any previous entry of that path. -/
def fsSet (fs : FState) (p : FilePathM) (d : FileData) : FState :=
  match fs with
  | [] => [(p, d)]
  | (q, e) :: rest => if q = p then (p, d) :: rest else (q, e) :: fsSet rest p d

/-- The error raised by `MetricFrame._write` when the target exists and
overwrite is disabled (`FileExistsError`), the persistence error of the spec
taxonomy. -/
inductive WriteErr where
  | fileExists (p : FilePathM)
deriving DecidableEq, Repr

/-- Source `MetricFrame._write(df, path, fmt, overwrite)`: raise before
touching the file when it exists and overwrite is off, otherwise serialize.
The in-flight write sequence is a state-plus-first-error pair; once an error
is raised the remaining writes do not happen. -/
def writeOne (overwrite : Bool) (st : FState × Option WriteErr) (p : FilePathM)
    (d : FileData) : FState × Option WriteErr :=
  match st.2 with
  | some _ => st
  | none =>
    if (List.lookup p st.1).isSome ∧ ¬overwrite then (st.1, some (.fileExists p))
    else (fsSet st.1 p d, none)

/-- The four per-category artifacts of `to_parquet`/`to_csv`, in source order,
named `<stem>.<ext>` in the destination directory. -/
def artifactList (dir ext : String) (mf : MetricFrame) : List (FilePathM × FileData) :=
  [((dir, "physical." ++ ext), mf.physical),
   ((dir, "network." ++ ext), mf.network),
   ((dir, "protocol." ++ ext), mf.protocol),
   ((dir, "security." ++ ext), mf.security)]

/-- Source `MetricFrame.to_parquet` / `to_csv` (and thus
`ResultWriter.write`): `mkdir` (implicit here), then `_write` the four
category tables in order, stopping at the first failure. -/
def writeFrame (fs : FState) (dir ext : String) (mf : MetricFrame) (overwrite : Bool) :
    FState × Option WriteErr :=
  (artifactList dir ext mf).foldl (fun st pd => writeOne overwrite st pd.1 pd.2) (fs, none)

/-- Source `ResultWriter.write(mf, overwrite)`: delegate to the parquet or csv
serializer according to the format chosen at construction. -/
def ResultWriter.write (fs : FState) (outDir : String) (fmt : String)
    (mf : MetricFrame) (overwrite : Bool) : FState × Option WriteErr :=
  if fmt = "parquet" then writeFrame fs outDir "parquet" mf overwrite
  else writeFrame fs outDir "csv" mf overwrite

/-!
FloatModel: exact model of the IEEE-754 rounding the source applies to the
time/bin computations.  A float value is represented by the integer
`m` standing for the real number `m / 2^FSCALE`; every binary32/binary64 value
reachable in the modelled computations (magnitudes between roughly 2^-48 and
2^53) is representable this way.  Rounding to a `p`-bit significand is
round-to-nearest, ties-to-even, on the grid of spacing `2^(e+1-p)` where
`2^e ≤ |x| < 2^(e+1)`; overflow and subnormals are never reached by the
modelled values.  The value columns of the slices (loss, qber, ...) do not
influence row counts, group keys, or the time column, so this model carries
exactly the time base, the bin keys and the loop arithmetic of
`_aggregate_timeslice` and `Orchestrator.run`.
-/

/-- Scale of the fixed-point representation: a model float `m : ℤ` denotes
`m / 2^FSCALE`. -/
def FSCALE : ℕ := 100

/-- Is `2^e ≤ a/b` (for positive `a b`), phrased without rational division. -/
def le2pow (a b : ℤ) (e : ℤ) : Bool :=
  if 0 ≤ e then b * ((2:ℤ) ^ e.toNat) ≤ a else b ≤ a * (2:ℤ) ^ (-e).toNat

/-- Binary search for the binade exponent: narrows `[lo, hi)` with
`2^lo ≤ a/b < 2^hi` until it holds the answer. -/
def searchExp (a b : ℤ) : ℕ → ℤ → ℤ → ℤ
  | 0, lo, _ => lo
  | fuel + 1, lo, hi =>
    if hi - lo ≤ 1 then lo
    else
      let mid := lo + (hi - lo) / 2
      if le2pow a b mid then searchExp a b fuel mid hi else searchExp a b fuel lo mid

/-- Binade exponent of the positive rational `a/b`: the `e` with
`2^e ≤ a/b < 2^(e+1)`, for exponents in `(-600, 600)` (all modelled values lie
far inside this range). -/
def ilog2Q (a b : ℤ) : ℤ := searchExp a b 16 (-600) 600

/-- Round half to even of the rational `a/b` (`b > 0`), as an integer. -/
def rndHE (a b : ℤ) : ℤ :=
  let q := a.fdiv b
  let r := a - q * b
  if 2 * r < b then q else if b < 2 * r then q + 1 else if q % 2 = 0 then q else q + 1

/-- IEEE round-to-nearest-even of the rational `a/b` (`b > 0`) to a `p`-bit
significand, returned in the fixed-point representation.  Zero rounds to
zero; otherwise the grid spacing is `2^(ilog2 - (p-1))`. -/
def flRound (p : ℕ) (a b : ℤ) : ℤ :=
  if a = 0 then 0
  else
    let s : ℤ := (p : ℤ) - 1 - ilog2Q a.natAbs b
    if 0 ≤ s then rndHE (a * 2 ^ s.toNat) b * 2 ^ (FSCALE - s.toNat)
    else rndHE a (b * 2 ^ (-s).toNat) * 2 ^ (FSCALE + (-s).toNat)

/-- binary64 sum of two model floats. -/
def fadd64 (A B : ℤ) : ℤ := flRound 53 (A + B) (2 ^ FSCALE)

/-- binary64 difference of two model floats. -/
def fsub64 (A B : ℤ) : ℤ := flRound 53 (A - B) (2 ^ FSCALE)

/-- binary64 product of two model floats. -/
def fmul64 (A B : ℤ) : ℤ := flRound 53 (A * B) (2 ^ (2 * FSCALE))

/-- binary64 quotient of two model floats (`B ≠ 0`). -/
def fdiv64 (A B : ℤ) : ℤ :=
  if 0 ≤ B then flRound 53 A B else flRound 53 (-A) (-B)

/-- `np.floor` of a model float, as an integer (exact in binary64 for every
magnitude reached here). -/
def ffloorI (A : ℤ) : ℤ := A.fdiv (2 ^ FSCALE)

/-- binary32 image of a model float (`np.float32(x)`). -/
def f32 (A : ℤ) : ℤ := flRound 24 A (2 ^ FSCALE)

/-- binary64 image of the rational `a/b` (`b > 0`): a Python float literal or
quotient. -/
def f64OfRat (a b : ℤ) : ℤ := flRound 53 a b

/-- The float32 sample time of index `i` and its float64 bin key, exactly as
the source computes them: `t = float32(float32(t0) + float32(i/rate))`
(numpy casts the float64 scalar `t0` to the array dtype float32), then in
float64 `key = floor((t - t0)/bin)*bin + t0` with each arithmetic step
rounded. -/
def sampleKeyF (T0 Bin : ℤ) (rate : ℕ) (i : ℕ) : ℤ :=
  let arr := flRound 24 (i : ℤ) (rate : ℤ)
  let t := flRound 24 (f32 T0 + arr) ((2:ℤ) ^ FSCALE)
  let d1 := fsub64 t T0
  let d2 := fdiv64 d1 Bin
  let f := ffloorI d2
  let b1 := fmul64 (f * 2 ^ FSCALE) Bin
  fadd64 b1 T0

/-- Insert a key into an ascending duplicate-free integer key list (the group
keys of `groupby(sort=True)` over float64 bin edges). -/
def insKeyF (k : ℤ) : List ℤ → List ℤ
  | [] => [k]
  | x :: xs => if k < x then k :: x :: xs else if k = x then x :: xs else x :: insKeyF k xs

/-- Group keys of one slice under float semantics: the distinct bin keys of
samples `0, ..., n-1`, ascending. -/
def chunkKeysGoF (T0 Bin : ℤ) (rate : ℕ) : ℕ → ℕ → List ℤ → List ℤ
  | _, 0, acc => acc
  | i, n + 1, acc => chunkKeysGoF T0 Bin rate (i + 1) n (insKeyF (sampleKeyF T0 Bin rate i) acc)

/-- Ascending distinct bin keys of one `n`-sample slice starting at `T0`. -/
def chunkKeysF (T0 Bin : ℤ) (rate : ℕ) (n : ℕ) : List ℤ :=
  chunkKeysGoF T0 Bin rate 0 n []

/-- The chunk loop of `Orchestrator.run` under float semantics, projected to
the time column: `t0`, `remaining` and `cur` evolve in binary64 exactly as in
the Python loop, `n = int(round(rate * cur))` uses the binary64 product and
half-even rounding, and each chunk contributes its ascending bin keys (the
time column of its aggregated tables, identical across the four categories). -/
def runTimesLoopF (rate : ℕ) (Bin Chunk : ℤ) :
    ℕ → ℤ → ℤ → List ℤ → Option (List ℤ)
  | 0, _, rem, acc => if 0 < rem then none else some acc
  | fuel + 1, T0, rem, acc =>
    if 0 < rem then
      let cur := if Chunk ≤ rem then Chunk else rem
      let nz := rndHE (fmul64 ((rate : ℤ) * 2 ^ FSCALE) cur) (2 ^ FSCALE)
      if nz ≤ 0 then runTimesLoopF rate Bin Chunk fuel (fadd64 T0 cur) (fsub64 rem cur) acc
      else
        runTimesLoopF rate Bin Chunk fuel (fadd64 T0 cur) (fsub64 rem cur)
          (acc ++ chunkKeysF T0 Bin rate nz.toNat)
    else some acc

/-- Ascending insertion keeping duplicates after their equals (stable). -/
def insSortedF (k : ℤ) : List ℤ → List ℤ
  | [] => [k]
  | x :: xs => if x ≤ k then x :: insSortedF k xs else k :: x :: xs

/-- The final stable sort of the time column (`kind="mergesort"`): stable
insertion computes the same list. -/
def stableSortF (l : List ℤ) : List ℤ := l.foldl (fun acc k => insSortedF k acc) []

/-- The time column of every category table returned by `Orchestrator.run`,
under float semantics: run the chunk loop, then sort.  All four categories
share one time base, so one list describes each of the four tables' time
columns. -/
def runTimesF (rate : ℕ) (dur bin chunk : ℤ) (fuel : ℕ) : Option (List ℤ) :=
  (runTimesLoopF rate bin chunk fuel 0 dur []).map stableSortF

/-- Restriction of a table to a set of column names: drop every other column
from the headers and from every row. -/
def restrictTable (t : Table) (names : List String) : Table :=
  ⟨t.cols.filter fun cd => decide (cd.1 ∈ names),
   t.rows.map fun r => r.filter fun cv => decide (cv.1 ∈ names)⟩

/-- The chunk schedule of a run: the (start, width) of each loop iteration,
computed from the chunk width and the remaining duration alone. -/
def chunkSpans (chunkSec : ℚ) : ℕ → ℚ → ℚ → List (ℚ × ℚ)
  | 0, _, _ => []
  | fuel + 1, t0, rem =>
    if 0 < rem then
      (t0, min chunkSec rem)
        :: chunkSpans chunkSec fuel (t0 + min chunkSec rem) (rem - min chunkSec rem)
    else []

/-- The append of one aggregated slice into the store, as a single step. -/
def appendSlice (g : TrigModel) (rate : ℤ) (binSec : ℚ) (mf : MetricFrame)
    (p : ℚ × ℚ) : MetricFrame :=
  let r := aggregateTimeslice g p.1 rate p.2 binSec
  mf.append (some r.1) (some r.2.1) (some r.2.2.1) (some r.2.2.2)

/-- Value of a model float as a rational. -/
def fq (A : ℤ) : ℚ := (A : ℚ) / 2 ^ FSCALE

/-- The binary64 image of `0.01` (the bin and chunk width of the C5 scenario). -/
def M64 : ℤ := 5764607523034235 * 2 ^ 41

/-- The binary64 image of `0.02` (the duration of the C5 scenario). -/
def D64 : ℤ := 5764607523034235 * 2 ^ 42

/-- The binary32 image of `M64`, i.e. `float32(0.01)`; it is strictly below
`0.01`. -/
def F32M : ℤ := 10737418 * 2 ^ 70

/-- Projecting the names out of a reheadered column list recovers the original
names. -/
theorem map_fst_map_pair {α β γ : Type} (l : List (α × β)) (f : α × β → γ) :
    ((l.map fun cd => (cd.1, f cd)).map Prod.fst) = l.map Prod.fst := by
  induction l with
  | nil => rfl
  | cons hd tl ih => simp [ih]

/-- Coercion keeps the reference column names, in order. -/
theorem coerceLike_names (df ref : Table) : (coerceLike df ref).names = ref.names := by
  unfold coerceLike Table.names
  exact map_fst_map_pair ref.cols _

/-- Rows of a coerced table: every incoming row reindexed and cast. -/
theorem coerceLike_rows (df ref : Table) :
    (coerceLike df ref).rows = df.rows.map (coerceRow df ref.cols) := rfl

/-- Coercion neither drops nor invents rows. -/
theorem coerceLike_length (df ref : Table) :
    (coerceLike df ref).rows.length = df.rows.length := by
  simp [coerceLike_rows]

/-- A category append always leaves the stored column names unchanged. -/
theorem appendStep_names (stored : Table) (ot : Option Table) :
    (appendStep stored ot).names = stored.names := by
  cases ot with
  | none => rfl
  | some t =>
    by_cases ht : t.rows = [] <;> by_cases hs : stored.rows = [] <;>
      simp [appendStep, ht, hs, coerceLike_names, Table.names, coerceLike,
        map_fst_map_pair]

/-- Rows after a category append: the stored rows followed by the coerced
incoming rows (an empty incoming table contributes nothing). -/
theorem appendStep_rows (stored t : Table) :
    (appendStep stored (some t)).rows = stored.rows ++ (coerceLike t stored).rows := by
  by_cases ht : t.rows = [] <;> by_cases hs : stored.rows = [] <;>
    simp [appendStep, ht, hs, coerceLike_rows]

/-- Appending all four tables of a frame acts on each category slot
independently. -/
theorem append_four_tableOf (mf f : MetricFrame) (cat : Category) :
    ((mf.append (some f.physical) (some f.network) (some f.protocol)
      (some f.security)).tableOf cat)
      = appendStep (mf.tableOf cat) (some (f.tableOf cat)) := by
  cases cat <;> rfl

/-- A single-category append acts on that category slot. -/
theorem appendCat_tableOf (mf : MetricFrame) (cat : Category) (t : Table) :
    ((appendCat mf cat t).tableOf cat) = appendStep (mf.tableOf cat) (some t) := by
  cases cat <;> rfl

/-- The default store holds the default table of each category. -/
theorem default_tableOf (cat : Category) :
    (({} : MetricFrame).tableOf cat) = defaultTable cat := by
  cases cat <;> rfl

/-- The default tables are empty. -/
theorem defaultTable_rows (cat : Category) : (defaultTable cat).rows = [] := by
  cases cat <;> rfl

/-- Casting the null marker to any dtype yields the null marker. -/
theorem castVal_na (dt : Dtype) : castVal dt .na = .na := by
  cases dt <;> rfl

/-- A lookup misses exactly when the key is absent from the row's keys. -/
theorem lookup_eq_none_of_nmem {β : Type} (c : String) (r : List (String × β))
    (h : c ∉ r.map Prod.fst) : List.lookup c r = none := by
  induction r with
  | nil => rfl
  | cons hd tl ih =>
    obtain ⟨k, v⟩ := hd
    simp only [List.map_cons, List.mem_cons] at h
    push_neg at h
    have hb : (c == k) = false := beq_eq_false_iff_ne.mpr h.1
    simp [List.lookup, hb, ih h.2]

/-- Filtering an association list to a key set does not change lookups of keys
inside that set. -/
theorem lookup_filter_mem {β : Type} (c : String) (names : List String)
    (hc : c ∈ names) (l : List (String × β)) :
    List.lookup c (l.filter fun cv => decide (cv.1 ∈ names)) = List.lookup c l := by
  induction l with
  | nil => rfl
  | cons hd tl ih =>
    obtain ⟨k, v⟩ := hd
    by_cases hk : c = k
    · subst hk
      simp [List.filter, hc, List.lookup]
    · have hb : (c == k) = false := beq_eq_false_iff_ne.mpr hk
      by_cases hm : k ∈ names
      · simp [List.filter, hm, List.lookup, hb, ih]
      · simp [List.filter, hm, List.lookup, hb, ih]

/-- Looking up a schema column in a reindexed row built over the reference
headers returns the value assigned to (the first occurrence of) that column. -/
theorem lookup_map_headers (cols : List Header) (c : String) (v : Header → Val)
    (hc : c ∈ cols.map Prod.fst) (hv : ∀ cd ∈ cols, cd.1 = c → v cd = .na) :
    List.lookup c (cols.map fun cd => (cd.1, v cd)) = some .na := by
  induction cols with
  | nil => simp at hc
  | cons hd tl ih =>
    by_cases hk : c = hd.1
    · have hb : (c == hd.1) = true := beq_iff_eq.mpr hk
      simp [List.lookup, hb, hv hd (by simp) hk.symm]
    · have hb : (c == hd.1) = false := beq_eq_false_iff_ne.mpr hk
      simp only [List.map_cons, List.mem_cons] at hc
      rcases hc with hc | hc
      · exact absurd hc (fun h => hk h)
      · simpa [List.lookup, hb] using
          ih hc (fun cd hcd => hv cd (by simp [hcd]))

/-- C7: merging two stores builds a new store on a fresh empty accumulator:
for every category, the merged rows are exactly the rows of A coerced onto the
fresh default table followed by the rows of B coerced onto the accumulator
that already received A (argument order, no drops), and the merged row count
is the sum of the two input row counts.  The inputs themselves are values and
are not modified. -/
theorem C7_merge_counts_order (A B : MetricFrame) (cat : Category) :
    ((A.merge [B]).tableOf cat).rows
      = (coerceLike (A.tableOf cat) (defaultTable cat)).rows
        ++ (coerceLike (B.tableOf cat)
            (appendStep (defaultTable cat) (some (A.tableOf cat)))).rows
    ∧ ((A.merge [B]).tableOf cat).rows.length
      = (A.tableOf cat).rows.length + (B.tableOf cat).rows.length := by
  have hmerge : A.merge [B]
      = (MetricFrame.append {} (some A.physical) (some A.network) (some A.protocol)
          (some A.security)).append
          (some B.physical) (some B.network) (some B.protocol) (some B.security) := rfl
  have hrows : ((A.merge [B]).tableOf cat).rows
      = (coerceLike (A.tableOf cat) (defaultTable cat)).rows
        ++ (coerceLike (B.tableOf cat)
            (appendStep (defaultTable cat) (some (A.tableOf cat)))).rows := by
    rw [hmerge, append_four_tableOf, appendStep_rows, append_four_tableOf,
      default_tableOf, appendStep_rows, defaultTable_rows]
    simp
  refine ⟨hrows, ?_⟩
  rw [hrows]
  simp [coerceLike_length, appendStep_rows, coerceLike_length]

/-- Pointwise-equal functions map lists equally. -/
theorem map_congr_mem {α β : Type} {l : List α} {f g : α → β}
    (h : ∀ a ∈ l, f a = g a) : l.map f = l.map g := by
  induction l with
  | nil => rfl
  | cons hd tl ih => simp [h hd (by simp), ih fun a ha => h a (by simp [ha])]

/-- Pointwise-equal predicates agree on `all`. -/
theorem all_congr_mem {α : Type} {l : List α} {p q : α → Bool}
    (h : ∀ a ∈ l, p a = q a) : l.all p = l.all q := by
  induction l with
  | nil => rfl
  | cons hd tl ih => simp [List.all, h hd (by simp), ih fun a ha => h a (by simp [ha])]

/-- C2: appending a non-empty table to a category whose stored column names
equal the canonical schema (1) keeps the column names equal to the schema,
(2) concatenates exactly the incoming rows, each reindexed to the stored
headers and cast to their dtypes, (3) gives every appended row the schema
column names in schema order, and (4) fills every schema column structurally
missing from the incoming table with the null marker instead of dropping it. -/
theorem C2_append_coerces_to_schema (mf : MetricFrame) (cat : Category) (t : Table)
    (_hne : t.rows ≠ [])
    (hw : (mf.tableOf cat).names = schemaNames cat) :
    ((appendCat mf cat t).tableOf cat).names = schemaNames cat
    ∧ ((appendCat mf cat t).tableOf cat).rows
        = (mf.tableOf cat).rows ++ t.rows.map (coerceRow t (mf.tableOf cat).cols)
    ∧ (∀ r ∈ t.rows.map (coerceRow t (mf.tableOf cat).cols),
        r.map Prod.fst = schemaNames cat)
    ∧ (∀ c ∈ schemaNames cat, (∀ row ∈ t.rows, List.lookup c row = none) →
        ∀ r ∈ t.rows.map (coerceRow t (mf.tableOf cat).cols),
          List.lookup c r = some .na) := by
  refine ⟨?_, ?_, ?_, ?_⟩
  · rw [appendCat_tableOf, appendStep_names, hw]
  · rw [appendCat_tableOf, appendStep_rows, coerceLike_rows]
  · intro r hr
    simp only [List.mem_map] at hr
    obtain ⟨row, _, hrow⟩ := hr
    rw [← hrow]
    unfold coerceRow
    rw [map_fst_map_pair]
    exact hw
  · intro c hc hmiss r hr
    simp only [List.mem_map] at hr
    obtain ⟨row, hrowmem, hrow⟩ := hr
    rw [← hrow]
    unfold coerceRow
    apply lookup_map_headers
    · have : c ∈ (mf.tableOf cat).names := hw ▸ hc
      simpa [Table.names] using this
    · intro cd _ hcd
      subst hcd
      have hcell : cellAt cd.1 row = .na := by
        simp [cellAt, hmiss row hrowmem]
      by_cases hcast : colCastable t cd.1 cd.2 <;> simp [hcast, hcell, castVal_na]


/-- Cell lookup is blind to columns outside the kept name set. -/
theorem cellAt_restrict (c : String) (names : List String) (hc : c ∈ names) (r : Row) :
    cellAt c (r.filter fun cv => decide (cv.1 ∈ names)) = cellAt c r := by
  simp [cellAt, lookup_filter_mem c names hc]

/-- Column castability is blind to columns outside the kept name set. -/
theorem colCastable_restrict (t : Table) (names : List String) (c : String)
    (hc : c ∈ names) (dt : Dtype) :
    colCastable (restrictTable t names) c dt = colCastable t c dt := by
  unfold colCastable restrictTable
  rw [List.all_map]
  exact all_congr_mem fun r _ => by simp [Function.comp, cellAt_restrict c names hc r]

/-- Coercion onto a reference whose column names all lie in the kept set is
blind to the dropped columns. -/
theorem coerceLike_restrict (t ref : Table) (names : List String)
    (hsub : ∀ cd ∈ ref.cols, cd.1 ∈ names) :
    coerceLike (restrictTable t names) ref = coerceLike t ref := by
  unfold coerceLike
  refine congrArg₂ Table.mk ?_ ?_
  · refine map_congr_mem fun cd hcd => ?_
    rw [colCastable_restrict t names cd.1 (hsub cd hcd) cd.2]
    by_cases hcast : colCastable t cd.1 cd.2
    · simp [hcast]
    · simp only [hcast, if_false]
      rw [show (restrictTable t names).cols = t.cols.filter fun cd => decide (cd.1 ∈ names)
        from rfl]
      rw [lookup_filter_mem cd.1 names (hsub cd hcd)]
  · rw [show (restrictTable t names).rows = t.rows.map fun r =>
      r.filter fun cv => decide (cv.1 ∈ names) from rfl]
    rw [List.map_map]
    refine map_congr_mem fun r _ => ?_
    simp only [Function.comp_apply]
    unfold coerceRow
    refine map_congr_mem fun cd hcd => ?_
    rw [colCastable_restrict t names cd.1 (hsub cd hcd) cd.2,
      cellAt_restrict cd.1 names (hsub cd hcd) r]

/-- Category append is blind to incoming columns outside the stored schema. -/
theorem appendStep_restrict (stored t : Table) (names : List String)
    (hsub : ∀ cd ∈ stored.cols, cd.1 ∈ names) :
    appendStep stored (some (restrictTable t names)) = appendStep stored (some t) := by
  have hred : ∀ u : Table, appendStep stored (some u)
      = if u.rows = [] then stored
        else if stored.rows = [] then coerceLike u stored
        else ⟨stored.cols, stored.rows ++ (coerceLike u stored).rows⟩ := fun u => rfl
  by_cases ht : t.rows = []
  · have h1 : (restrictTable t names).rows = [] := by simp [restrictTable, ht]
    rw [hred, hred]
    simp [ht, h1]
  · have h1 : ¬(restrictTable t names).rows = [] := by simp [restrictTable, ht]
    rw [hred, hred]
    simp [ht, h1, coerceLike_restrict t stored names hsub]

/-- C10: `append` silently discards incoming columns outside the category's
canonical schema: appending a table and appending its restriction to the
schema columns produce identical stores (so values of extra columns never
reach the store, and no error is raised — append is a total function), and
the stored column names remain exactly the canonical schema. -/
theorem C10_extra_columns_discarded (mf : MetricFrame) (cat : Category) (t : Table)
    (hw : (mf.tableOf cat).names = schemaNames cat) :
    appendCat mf cat (restrictTable t (schemaNames cat)) = appendCat mf cat t
    ∧ ((appendCat mf cat t).tableOf cat).names = schemaNames cat := by
  have hsub : ∀ cd ∈ (mf.tableOf cat).cols, cd.1 ∈ schemaNames cat := by
    intro cd hcd
    rw [← hw]
    simp only [Table.names, List.mem_map]
    exact ⟨cd, hcd, rfl⟩
  constructor
  · have hstep := appendStep_restrict (mf.tableOf cat) t (schemaNames cat) hsub
    cases cat <;>
      simp only [appendCat, MetricFrame.append] <;>
      rw [show (mf.tableOf _) = _ from rfl] at hstep <;>
      simp_all [MetricFrame.tableOf]
  · rw [appendCat_tableOf, appendStep_names, hw]

/-- Membership in a stable insertion. -/
theorem insRow_mem (y r : Row) (l : List Row) :
    y ∈ insRow r l ↔ y = r ∨ y ∈ l := by
  induction l with
  | nil => simp [insRow]
  | cons x xs ih =>
    by_cases hle : rowTime x ≤ rowTime r
    · simp only [insRow, hle, if_true, List.mem_cons, ih]
      try tauto
    · simp only [insRow, hle, if_false, List.mem_cons]
      try tauto

/-- Stable insertion preserves sortedness by time. -/
theorem insRow_pairwise (r : Row) (l : List Row)
    (h : List.Pairwise (fun a b => rowTime a ≤ rowTime b) l) :
    List.Pairwise (fun a b => rowTime a ≤ rowTime b) (insRow r l) := by
  induction l with
  | nil => simp [insRow]
  | cons x xs ih =>
    rcases h with _ | ⟨hx, hxs⟩
    by_cases hle : rowTime x ≤ rowTime r
    · simp only [insRow, hle, if_true]
      refine List.Pairwise.cons ?_ (ih hxs)
      intro y hy
      rcases (insRow_mem y r xs).mp hy with h2 | h2
      · subst h2; exact hle
      · exact hx y h2
    · simp only [insRow, hle, if_false]
      refine List.Pairwise.cons ?_ (List.Pairwise.cons hx hxs)
      intro y hy
      rcases List.mem_cons.mp hy with h2 | h2
      · subst h2; exact le_of_not_le hle
      · exact le_trans (le_of_not_le hle) (hx y h2)

/-- The stable sort sorts: its output is pairwise non-decreasing in time. -/
theorem sortRows_pairwise (l : List Row) :
    List.Pairwise (fun a b => rowTime a ≤ rowTime b) (sortRows l) := by
  have main : ∀ (l acc : List Row),
      List.Pairwise (fun a b => rowTime a ≤ rowTime b) acc →
      List.Pairwise (fun a b => rowTime a ≤ rowTime b)
        (l.foldl (fun acc r => insRow r acc) acc) := by
    intro l
    induction l with
    | nil => intro acc h; simpa using h
    | cons hd tl ih =>
      intro acc h
      exact ih (insRow hd acc) (insRow_pairwise hd acc h)
  exact main l [] (by simp)

/-- Inserting a row whose time equals `e` appends it to the `e`-filtered
segment; inserting any other row leaves that segment unchanged.  Requires the
accumulator to be sorted (as it always is during the fold). -/
theorem filter_insRow (e : ℚ) (r : Row) (l : List Row)
    (h : List.Pairwise (fun a b => rowTime a ≤ rowTime b) l) :
    (insRow r l).filter (fun x => decide (rowTime x = e))
      = if rowTime r = e
        then l.filter (fun x => decide (rowTime x = e)) ++ [r]
        else l.filter (fun x => decide (rowTime x = e)) := by
  induction l with
  | nil =>
    by_cases hr : rowTime r = e
    · rw [if_pos hr]
      simp [insRow, List.filter, hr]
    · rw [if_neg hr]
      simp [insRow, List.filter, hr]
  | cons x xs ih =>
    rcases h with _ | ⟨hx, hxs⟩
    by_cases hle : rowTime x ≤ rowTime r
    · have hstep : insRow r (x :: xs) = x :: insRow r xs := by
        simp only [insRow, hle, if_true]
      rw [hstep]
      by_cases hxe : rowTime x = e <;> by_cases hre : rowTime r = e
      · rw [if_pos hre]
        simp only [List.filter_cons, decide_eq_true_eq, if_pos hxe, ih hxs, if_pos hre]
        simp
      · rw [if_neg hre]
        simp only [List.filter_cons, decide_eq_true_eq, if_pos hxe, ih hxs, if_neg hre]
      · rw [if_pos hre]
        simp only [List.filter_cons, decide_eq_true_eq, if_neg hxe, ih hxs, if_pos hre]
      · rw [if_neg hre]
        simp only [List.filter_cons, decide_eq_true_eq, if_neg hxe, ih hxs, if_neg hre]
    · have hrx : rowTime r < rowTime x := lt_of_not_le hle
      have hstep : insRow r (x :: xs) = r :: x :: xs := by
        simp only [insRow, hle, if_false]
      rw [hstep]
      by_cases hre : rowTime r = e
      · have hempty : (x :: xs).filter (fun y => decide (rowTime y = e)) = [] := by
          apply List.filter_eq_nil_iff.mpr
          intro y hy
          simp only [decide_eq_true_eq]
          rcases List.mem_cons.mp hy with h2 | h2
          · subst h2
            intro hcon
            rw [hcon, hre] at hrx
            exact absurd hrx (lt_irrefl _)
          · intro hcon
            have h3 : rowTime x ≤ rowTime y := hx y h2
            rw [hcon] at h3
            rw [hre] at hrx
            exact absurd (lt_of_lt_of_le hrx h3) (lt_irrefl _)
        rw [if_pos hre]
        simp only [List.filter_cons, decide_eq_true_eq, if_pos hre, hempty]
        simp [hempty]
      · rw [if_neg hre]
        simp only [List.filter_cons, decide_eq_true_eq, if_neg hre]

/-- Stability of the final sort: for every time value, the rows carrying that
time appear in the sorted output exactly as they appeared, in order, in the
unsorted input. -/
theorem sortRows_stable (l : List Row) (e : ℚ) :
    (sortRows l).filter (fun x => decide (rowTime x = e))
      = l.filter (fun x => decide (rowTime x = e)) := by
  have main : ∀ (l acc : List Row),
      List.Pairwise (fun a b => rowTime a ≤ rowTime b) acc →
      (l.foldl (fun acc r => insRow r acc) acc).filter (fun x => decide (rowTime x = e))
        = acc.filter (fun x => decide (rowTime x = e))
          ++ l.filter (fun x => decide (rowTime x = e)) := by
    intro l
    induction l with
    | nil => intro acc _; simp
    | cons hd tl ih =>
      intro acc h
      rw [List.foldl_cons, ih (insRow hd acc) (insRow_pairwise hd acc h),
        filter_insRow e hd acc h]
      by_cases hre : rowTime hd = e
      · rw [if_pos hre]
        simp only [List.filter_cons, decide_eq_true_eq, if_pos hre]
        simp
      · rw [if_neg hre]
        simp only [List.filter_cons, decide_eq_true_eq, if_neg hre]
  simpa using main l [] (by simp)

/-- Sorting a store sorts each category table in place. -/
theorem sortAll_tableOf (mf : MetricFrame) (cat : Category) :
    (sortAll mf).tableOf cat = ⟨(mf.tableOf cat).cols, sortRows (mf.tableOf cat).rows⟩ := by
  cases cat <;> rfl

/-- Half-even rounding of an integer is that integer. -/
theorem pyRound_intCast (z : ℤ) : pyRound (z : ℚ) = z := by
  unfold pyRound
  norm_num

/-- Half-even rounding maps non-positive reals to non-positive integers. -/
theorem pyRound_nonpos (q : ℚ) (h : q ≤ 0) : pyRound q ≤ 0 := by
  unfold pyRound
  by_cases h1 : q - ⌊q⌋ < 1/2
  · simp only [h1, if_true]
    exact Int.floor_nonpos h
  · have hfl : (⌊q⌋ : ℚ) ≤ q := Int.floor_le q
    have hneg : ⌊q⌋ + 1 ≤ 0 := by
      by_contra hcon
      push_neg at hcon
      have h0 : 0 ≤ ⌊q⌋ := by omega
      have : (0 : ℚ) ≤ ⌊q⌋ := by exact_mod_cast h0
      have h2 : (1 : ℚ)/2 ≤ q - ⌊q⌋ := le_of_not_lt h1
      have : (1 : ℚ)/2 ≤ q := by linarith
      linarith
    by_cases h2 : 1/2 < q - ⌊q⌋
    · simp only [h1, if_false, h2, if_true]
      exact hneg
    · simp only [h1, if_false, h2, if_false]
      by_cases h3 : ⌊q⌋ % 2 = 0
      · simp only [h3, if_true]
        omega
      · simp only [h3, if_false]
        exact hneg


/-- The loop terminates whenever the fuel covers the remaining duration in
chunk-sized steps. -/
theorem runLoop_total (g : TrigModel) (o : Orchestrator) (hc : 0 < o.chunk_sec) :
    ∀ (fuel : ℕ) (t0 rem : ℚ) (mf : MetricFrame), rem ≤ fuel * o.chunk_sec →
      ∃ out, runLoop g o fuel t0 rem mf = some out := by
  intro fuel
  induction fuel with
  | zero =>
    intro t0 rem mf h
    refine ⟨mf, ?_⟩
    have : ¬ 0 < rem := by push_neg; simpa using h
    simp [runLoop, this]
  | succ n ih =>
    intro t0 rem mf h
    by_cases hrem : 0 < rem
    · have hstep : rem - min o.chunk_sec rem ≤ n * o.chunk_sec := by
        rcases le_total o.chunk_sec rem with h1 | h1
        · rw [min_eq_left h1]
          have : (n.succ : ℚ) * o.chunk_sec = n * o.chunk_sec + o.chunk_sec := by
            push_cast; ring
          rw [this] at h
          linarith
        · rw [min_eq_right h1]
          have : (0:ℚ) ≤ n * o.chunk_sec := by positivity
          linarith
      obtain ⟨out, hout⟩ := ih (t0 + min o.chunk_sec rem) (rem - min o.chunk_sec rem)
        (appendSlice g o.pulse_rate_hz o.bin_sec mf (t0, min o.chunk_sec rem)) hstep
      refine ⟨out, ?_⟩
      simp only [runLoop, hrem, if_true]
      exact hout
    · exact ⟨mf, by simp [runLoop, hrem]⟩

/-- The loop is exactly a fold of independent chunk aggregates over the chunk
schedule: the store it returns is determined by folding
`aggregateTimeslice` of each span's own (start, rate, width, bin width) onto
the initial store, with no other state carried between iterations. -/
theorem runLoop_eq_foldl (g : TrigModel) (o : Orchestrator) :
    ∀ (fuel : ℕ) (t0 rem : ℚ) (mf out : MetricFrame),
      runLoop g o fuel t0 rem mf = some out →
      out = (chunkSpans o.chunk_sec fuel t0 rem).foldl
        (appendSlice g o.pulse_rate_hz o.bin_sec) mf := by
  intro fuel
  induction fuel with
  | zero =>
    intro t0 rem mf out h
    by_cases hrem : 0 < rem
    · simp [runLoop, hrem] at h
    · simp only [runLoop, hrem, if_false, Option.some_inj] at h
      simp [chunkSpans, hrem, h]
  | succ n ih =>
    intro t0 rem mf out h
    by_cases hrem : 0 < rem
    · simp only [runLoop, hrem, if_true] at h
      have := ih _ _ _ _ h
      simp only [chunkSpans, hrem, if_true, List.foldl_cons]
      exact this
    · simp only [runLoop, hrem, if_false, Option.some_inj] at h
      simp [chunkSpans, hrem, h]

/-- A terminating run exists for positive duration and chunk width, and its
result is the sorted fold of the chunk schedule. -/
theorem runRaw_eq (g : TrigModel) (o : Orchestrator) (_hd : 0 < o.duration_s)
    (hc : 0 < o.chunk_sec) :
    o.runRaw g = some ((chunkSpans o.chunk_sec (runFuel o) 0 o.duration_s).foldl
      (appendSlice g o.pulse_rate_hz o.bin_sec) {}) := by
  have hcov : o.duration_s ≤ (runFuel o : ℚ) * o.chunk_sec := by
    unfold runFuel
    push_cast
    have h1 : o.duration_s / o.chunk_sec ≤ (⌈o.duration_s / o.chunk_sec⌉₊ : ℚ) :=
      Nat.le_ceil _
    have h2 : o.duration_s / o.chunk_sec * o.chunk_sec = o.duration_s :=
      div_mul_cancel₀ _ (ne_of_gt hc)
    nlinarith
  obtain ⟨out, hout⟩ := runLoop_total g o hc (runFuel o) 0 o.duration_s {} hcov
  have := runLoop_eq_foldl g o (runFuel o) 0 o.duration_s {} out hout
  rw [Orchestrator.runRaw, hout, this]

/-- C1: for every valid input (positive rate, duration, bin width and chunk
width) the run terminates with a store whose four category tables are
non-decreasing in their time column, and the final per-category sort is
stable: for every time value (in particular every bin edge shared by rows of
different chunks), the rows carrying it appear in the final table exactly in
their chunk-arrival order. -/
theorem C1_run_sorted_stable (g : TrigModel) (o : Orchestrator)
    (_hr : 0 < o.pulse_rate_hz) (hd : 0 < o.duration_s) (_hb : 0 < o.bin_sec)
    (hc : 0 < o.chunk_sec) :
    ∃ raw mf, o.runRaw g = some raw ∧ o.run g = some mf ∧
      (∀ cat, List.Pairwise (fun a b => rowTime a ≤ rowTime b) (mf.tableOf cat).rows) ∧
      (∀ cat (e : ℚ), ((mf.tableOf cat).rows.filter fun x => decide (rowTime x = e))
          = ((raw.tableOf cat).rows.filter fun x => decide (rowTime x = e))) := by
  have hraw := runRaw_eq g o hd hc
  refine ⟨(chunkSpans o.chunk_sec (runFuel o) 0 o.duration_s).foldl
      (appendSlice g o.pulse_rate_hz o.bin_sec) {},
    sortAll ((chunkSpans o.chunk_sec (runFuel o) 0 o.duration_s).foldl
      (appendSlice g o.pulse_rate_hz o.bin_sec) {}), hraw, ?_, ?_, ?_⟩
  · rw [Orchestrator.run, hraw]
    rfl
  · intro cat
    rw [sortAll_tableOf]
    exact sortRows_pairwise _
  · intro cat e
    rw [sortAll_tableOf]
    exact sortRows_stable _ e

/-- C9: slice generation and aggregation carries no state between chunks: a
terminating run equals the fold, over the chunk schedule (computed from
duration and chunk width alone), of the store-append of
`aggregateTimeslice` applied to each chunk's own (start_time, rate,
slice_width, bin_width); each chunk is therefore independently replayable,
and any two invocations of `aggregateTimeslice` on equal parameters are the
same value of a pure function. -/
theorem C9_chunks_pure_independent (g : TrigModel) (o : Orchestrator)
    (hd : 0 < o.duration_s) (hc : 0 < o.chunk_sec) :
    o.runRaw g = some ((chunkSpans o.chunk_sec (runFuel o) 0 o.duration_s).foldl
        (appendSlice g o.pulse_rate_hz o.bin_sec) {})
    ∧ o.run g = some (sortAll ((chunkSpans o.chunk_sec (runFuel o) 0 o.duration_s).foldl
        (appendSlice g o.pulse_rate_hz o.bin_sec) {}))
    ∧ (∀ mf p, appendSlice g o.pulse_rate_hz o.bin_sec mf p
        = mf.append (some (aggregateTimeslice g p.1 o.pulse_rate_hz p.2 o.bin_sec).1)
            (some (aggregateTimeslice g p.1 o.pulse_rate_hz p.2 o.bin_sec).2.1)
            (some (aggregateTimeslice g p.1 o.pulse_rate_hz p.2 o.bin_sec).2.2.1)
            (some (aggregateTimeslice g p.1 o.pulse_rate_hz p.2 o.bin_sec).2.2.2)) := by
  have hraw := runRaw_eq g o hd hc
  exact ⟨hraw, by rw [Orchestrator.run, hraw]; rfl, fun mf p => rfl⟩

/-- An aggregate over a non-positive rate is the empty slice. -/
theorem aggregate_rate_nonpos (g : TrigModel) (t0 : ℚ) (rate : ℤ) (cs bs : ℚ)
    (hr : rate ≤ 0) (hcs : 0 < cs) :
    aggregateTimeslice g t0 rate cs bs = emptySlice := by
  have hmul : (rate : ℚ) * cs ≤ 0 :=
    mul_nonpos_of_nonpos_of_nonneg (by exact_mod_cast hr) (le_of_lt hcs)
  have hn : pyRound ((rate : ℚ) * cs) ≤ 0 := pyRound_nonpos _ hmul
  unfold aggregateTimeslice
  simp [hn]

/-- Appending the empty slice is a no-op on the store. -/
theorem append_emptySlice (mf : MetricFrame) :
    mf.append (some emptySlice.1) (some emptySlice.2.1) (some emptySlice.2.2.1)
      (some emptySlice.2.2.2) = mf := by
  simp [MetricFrame.append, appendStep, emptySlice]

/-- With a non-positive rate every chunk contributes nothing: the loop returns
its initial store. -/
theorem runLoop_rate_nonpos (g : TrigModel) (o : Orchestrator)
    (hr : o.pulse_rate_hz ≤ 0) (hc : 0 < o.chunk_sec) :
    ∀ (fuel : ℕ) (t0 rem : ℚ) (mf out : MetricFrame),
      runLoop g o fuel t0 rem mf = some out → out = mf := by
  intro fuel
  induction fuel with
  | zero =>
    intro t0 rem mf out h
    by_cases hrem : 0 < rem
    · simp [runLoop, hrem] at h
    · simp only [runLoop, hrem, if_false, Option.some_inj] at h
      exact h.symm
  | succ n ih =>
    intro t0 rem mf out h
    by_cases hrem : 0 < rem
    · simp only [runLoop, hrem, if_true] at h
      have hcur : 0 < min o.chunk_sec rem := lt_min hc hrem
      rw [aggregate_rate_nonpos g t0 o.pulse_rate_hz _ o.bin_sec hr hcur] at h
      rw [append_emptySlice] at h
      exact ih _ _ _ _ h
    · simp only [runLoop, hrem, if_false, Option.some_inj] at h
      exact h.symm

/-- C3 (amended): `run` performs no precondition validation.  With a
non-positive rate and positive duration, bin width and chunk width, it does
not raise: it completes normally and returns a store whose four category
tables are all empty (each chunk generates zero samples). -/
theorem C3_amended_no_validation (g : TrigModel) (o : Orchestrator)
    (hr : o.pulse_rate_hz ≤ 0) (_hd : 0 < o.duration_s) (_hb : 0 < o.bin_sec)
    (hc : 0 < o.chunk_sec) :
    ∃ mf, o.run g = some mf ∧ ∀ cat, (mf.tableOf cat).rows = [] := by
  have hcov : o.duration_s ≤ (runFuel o : ℚ) * o.chunk_sec := by
    unfold runFuel
    push_cast
    have h1 : o.duration_s / o.chunk_sec ≤ (⌈o.duration_s / o.chunk_sec⌉₊ : ℚ) :=
      Nat.le_ceil _
    have h2 : o.duration_s / o.chunk_sec * o.chunk_sec = o.duration_s :=
      div_mul_cancel₀ _ (ne_of_gt hc)
    nlinarith
  obtain ⟨out, hout⟩ := runLoop_total g o hc (runFuel o) 0 o.duration_s {} hcov
  have hempty := runLoop_rate_nonpos g o hr hc (runFuel o) 0 o.duration_s {} out hout
  refine ⟨sortAll out, ?_, ?_⟩
  · rw [Orchestrator.run, Orchestrator.runRaw, hout]
    rfl
  · intro cat
    rw [sortAll_tableOf, hempty]
    rw [show (({} : MetricFrame).tableOf cat).rows = [] from by cases cat <;> rfl]
    rfl

/-- C3 (counterexample): at rate 0 with duration, bin width and chunk width
all 1 — a violation of the stated precondition — `run` does not raise a
configuration error: it completes and produces a store (with all four tables
empty).  No validation exists in `run`. -/
theorem C3_counterexample_store_produced :
    (Orchestrator.mk 0 1 1 1).run ⟨fun _ => 0, fun _ => 0⟩ = some {} := by
  have hc : (0:ℚ) < (Orchestrator.mk 0 1 1 1).chunk_sec := by norm_num
  have hcov : (Orchestrator.mk 0 1 1 1).duration_s
      ≤ ((runFuel (Orchestrator.mk 0 1 1 1)) : ℚ) * (Orchestrator.mk 0 1 1 1).chunk_sec := by
    unfold runFuel
    push_cast
    norm_num
  obtain ⟨out, hout⟩ := runLoop_total ⟨fun _ => 0, fun _ => 0⟩ (Orchestrator.mk 0 1 1 1)
    hc (runFuel (Orchestrator.mk 0 1 1 1)) 0 (Orchestrator.mk 0 1 1 1).duration_s {} hcov
  have hempty := runLoop_rate_nonpos ⟨fun _ => 0, fun _ => 0⟩ (Orchestrator.mk 0 1 1 1)
    (by norm_num) hc (runFuel (Orchestrator.mk 0 1 1 1)) 0
    (Orchestrator.mk 0 1 1 1).duration_s {} out hout
  rw [Orchestrator.run, Orchestrator.runRaw, hout, hempty]
  rfl

/-- Membership in a sorted-dedup key insertion. -/
theorem insKey_mem (a k : ℚ) (l : List ℚ) : a ∈ insKey k l ↔ a = k ∨ a ∈ l := by
  induction l with
  | nil => simp [insKey]
  | cons x xs ih =>
    by_cases h1 : k < x
    · simp only [insKey, h1, if_true, List.mem_cons]
      try tauto
    · by_cases h2 : k = x
      · subst h2
        simp only [insKey, h1, if_true, if_false, List.mem_cons]
        try tauto
      · simp only [insKey, h1, h2, if_false, List.mem_cons, ih]
        try tauto

/-- Key insertion preserves strict ascending order. -/
theorem insKey_pairwise (k : ℚ) (l : List ℚ) (h : List.Pairwise (· < ·) l) :
    List.Pairwise (· < ·) (insKey k l) := by
  induction l with
  | nil => simp [insKey]
  | cons x xs ih =>
    rcases h with _ | ⟨hx, hxs⟩
    by_cases h1 : k < x
    · simp only [insKey, h1, if_true]
      refine List.Pairwise.cons ?_ (List.Pairwise.cons hx hxs)
      intro y hy
      rcases List.mem_cons.mp hy with h2 | h2
      · subst h2; exact h1
      · exact lt_trans h1 (hx y h2)
    · by_cases h2 : k = x
      · subst h2
        simp only [insKey, h1, if_false, if_true]
        exact List.Pairwise.cons hx hxs
      · simp only [insKey, h1, h2, if_false]
        refine List.Pairwise.cons ?_ (ih hxs)
        intro y hy
        rcases (insKey_mem y k xs).mp hy with h3 | h3
        · subst h3
          exact lt_of_le_of_ne (le_of_not_lt h1) (Ne.symm h2)
        · exact hx y h3

/-- The keys of a groupby are strictly ascending (hence pairwise distinct). -/
theorem groupKeys_pairwise (ks : List ℚ) : List.Pairwise (· < ·) (groupKeys ks) := by
  have main : ∀ (l acc : List ℚ), List.Pairwise (· < ·) acc →
      List.Pairwise (· < ·) (l.foldl (fun acc k => insKey k acc) acc) := by
    intro l
    induction l with
    | nil => intro acc h; simpa using h
    | cons hd tl ih => intro acc h; exact ih _ (insKey_pairwise hd acc h)
  exact main ks [] (by simp)

/-- Every group key is one of the grouped keys. -/
theorem groupKeys_subset (ks : List ℚ) (a : ℚ) (h : a ∈ groupKeys ks) : a ∈ ks := by
  have main : ∀ (l acc : List ℚ) (a : ℚ),
      a ∈ l.foldl (fun acc k => insKey k acc) acc → a ∈ acc ∨ a ∈ l := by
    intro l
    induction l with
    | nil => intro acc a h; exact Or.inl (by simpa using h)
    | cons hd tl ih =>
      intro acc a h
      rcases ih (insKey hd acc) a h with h2 | h2
      · rcases (insKey_mem a hd acc).mp h2 with h3 | h3
        · exact Or.inr (by simp [h3])
        · exact Or.inl h3
      · exact Or.inr (by simp [h2])
  rcases main ks [] a h with h2 | h2
  · simp at h2
  · exact h2

/-- Grouping a non-empty constant key list yields exactly that one key. -/
theorem groupKeys_const (ks : List ℚ) (k : ℚ) (hne : ks ≠ [])
    (hall : ∀ x ∈ ks, x = k) : groupKeys ks = [k] := by
  have step : ∀ (l : List ℚ), (∀ x ∈ l, x = k) →
      l.foldl (fun acc k => insKey k acc) [k] = [k] := by
    intro l
    induction l with
    | nil => intro _; rfl
    | cons hd tl ih =>
      intro h
      have hhd : hd = k := h hd (by simp)
      subst hhd
      have : insKey hd [hd] = [hd] := by simp [insKey]
      rw [List.foldl_cons, this]
      exact ih fun x hx => h x (by simp [hx])
  obtain ⟨hd, tl, rfl⟩ := List.exists_cons_of_ne_nil hne
  have hhd : hd = k := hall hd (by simp)
  subst hhd
  rw [groupKeys, List.foldl_cons]
  show List.foldl (fun acc k => insKey k acc) (insKey hd []) tl = [hd]
  rw [show insKey hd [] = [hd] from rfl]
  exact step tl fun x hx => hall x (by simp [hx])

/-- The time cell of every aggregated row literal is its bin key. -/
theorem rowTime_cons_time (k : ℚ) (rest : Row) :
    rowTime (("time", Val.num k) :: rest) = k := by
  simp [rowTime, List.lookup]

/-- C4: for every chunk with at least one sample, each aggregated row's time
equals a bin edge, that is floor((t - t0)/bin_width)*bin_width + t0 for some
sample time t of the chunk, and within one chunk no category table has two
rows with the same edge: the per-category times are strictly increasing, so
duplicate edges have been merged by the per-column reducer. -/
theorem C4_rows_are_distinct_bin_edges (g : TrigModel) (t0 : ℚ) (rate : ℤ)
    (chunkSec binSec : ℚ) (hn : 0 < pyRound ((rate : ℚ) * chunkSec)) :
    ∀ tbl ∈ [(aggregateTimeslice g t0 rate chunkSec binSec).1,
             (aggregateTimeslice g t0 rate chunkSec binSec).2.1,
             (aggregateTimeslice g t0 rate chunkSec binSec).2.2.1,
             (aggregateTimeslice g t0 rate chunkSec binSec).2.2.2],
      List.Pairwise (fun a b => rowTime a < rowTime b) tbl.rows
      ∧ ∀ row ∈ tbl.rows,
          ∃ t ∈ sampleTimes t0 rate (pyRound ((rate : ℚ) * chunkSec)).toNat,
            rowTime row = binEdge t0 binSec t := by
  have hnle : ¬ pyRound ((rate : ℚ) * chunkSec) ≤ 0 := not_le.mpr hn
  have hkey : ∀ (f : ℚ → Row), (∀ k, rowTime (f k) = k) →
      List.Pairwise (fun a b => rowTime a < rowTime b)
        ((groupKeys ((sampleTimes t0 rate (pyRound ((rate : ℚ) * chunkSec)).toNat).map
          (binEdge t0 binSec))).map f)
      ∧ ∀ row ∈ (groupKeys ((sampleTimes t0 rate
            (pyRound ((rate : ℚ) * chunkSec)).toNat).map (binEdge t0 binSec))).map f,
          ∃ t ∈ sampleTimes t0 rate (pyRound ((rate : ℚ) * chunkSec)).toNat,
            rowTime row = binEdge t0 binSec t := by
    intro f hf
    constructor
    · rw [List.pairwise_map]
      exact (groupKeys_pairwise _).imp fun {a b} hab => by rw [hf a, hf b]; exact hab
    · intro row hrow
      rw [List.mem_map] at hrow
      obtain ⟨k, hk, hrowk⟩ := hrow
      have hk2 := groupKeys_subset _ k hk
      rw [List.mem_map] at hk2
      obtain ⟨t, ht, hedge⟩ := hk2
      exact ⟨t, ht, by rw [← hrowk, hf k, ← hedge]⟩
  intro tbl htbl
  simp only [aggregateTimeslice, hnle, if_false, List.mem_cons,
    List.mem_singleton, List.not_mem_nil, or_false] at htbl
  rcases htbl with h | h | h | h <;> subst h
  · exact hkey _ fun k => rowTime_cons_time k _
  · exact hkey _ fun k => rowTime_cons_time k _
  · exact hkey _ fun k => rowTime_cons_time k _
  · exact hkey _ fun k => rowTime_cons_time k _

/-- An exhausted remainder schedules no chunks. -/
theorem chunkSpans_nonpos (c : ℚ) (fuel : ℕ) (t0 rem : ℚ) (h : ¬ 0 < rem) :
    chunkSpans c fuel t0 rem = [] := by
  cases fuel <;> simp [chunkSpans, h]

/-- Appending four tables fills each category slot with its own table. -/
theorem append_tableOf4 (mf : MetricFrame) (a b c d : Table) (cat : Category) :
    (mf.append (some a) (some b) (some c) (some d)).tableOf cat
      = appendStep (mf.tableOf cat)
          (some (match cat with
            | .physical => a | .network => b | .protocol => c | .security => d)) := by
  cases cat <;> rfl

/-- Reindexing to a reference whose first column is the float64 time column
preserves a numeric time cell. -/
theorem rowTime_coerceRow (df : Table) (rest : List Header) (r : Row) (q : ℚ)
    (hcell : cellAt "time" r = .num q) :
    rowTime (coerceRow df (("time", Dtype.f64) :: rest) r) = q := by
  unfold coerceRow rowTime
  by_cases hcast : colCastable df "time" Dtype.f64 <;>
    simp [List.lookup, hcast, hcell, castVal]

/-- A slice whose samples all fall into one bin appends exactly one row, with
that bin edge as its time, to each category of a fresh store. -/
theorem appendSlice_single_bin (g : TrigModel) (rate : ℤ) (bs t0 cs k : ℚ)
    (hnle : ¬ pyRound ((rate : ℚ) * cs) ≤ 0)
    (hkeys : groupKeys ((sampleTimes t0 rate (pyRound ((rate : ℚ) * cs)).toNat).map
      (binEdge t0 bs)) = [k]) :
    ∀ cat, ∃ r, (((appendSlice g rate bs {} (t0, cs)).tableOf cat).rows = [r])
      ∧ rowTime r = k := by
  intro cat
  have hagg : ∀ tbl ∈ [(aggregateTimeslice g t0 rate cs bs).1,
      (aggregateTimeslice g t0 rate cs bs).2.1,
      (aggregateTimeslice g t0 rate cs bs).2.2.1,
      (aggregateTimeslice g t0 rate cs bs).2.2.2],
      ∃ row, tbl.rows = [row] ∧ cellAt "time" row = .num k := by
    intro tbl htbl
    simp only [aggregateTimeslice, hnle, if_false, List.mem_cons,
      List.mem_singleton, List.not_mem_nil, or_false] at htbl
    rcases htbl with h | h | h | h <;> subst h <;>
      refine ⟨_, by rw [hkeys]; rfl, ?_⟩ <;> simp [cellAt, List.lookup]
  rw [appendSlice, append_tableOf4, default_tableOf, appendStep_rows,
    defaultTable_rows, coerceLike_rows]
  have hhead : ∃ rest, (defaultTable cat).cols = ("time", Dtype.f64) :: rest := by
    cases cat <;> exact ⟨_, rfl⟩
  obtain ⟨rest, hrest⟩ := hhead
  cases cat with
  | physical =>
    obtain ⟨row, hrow, hcell⟩ := hagg ((aggregateTimeslice g t0 rate cs bs).1) (by simp)
    dsimp only
    refine ⟨coerceRow ((aggregateTimeslice g t0 rate cs bs).1)
      (defaultTable Category.physical).cols row, ?_, ?_⟩
    · rw [hrow]
      rfl
    · rw [hrest]
      exact rowTime_coerceRow _ rest row k hcell
  | network =>
    obtain ⟨row, hrow, hcell⟩ := hagg ((aggregateTimeslice g t0 rate cs bs).2.1) (by simp)
    dsimp only
    refine ⟨coerceRow ((aggregateTimeslice g t0 rate cs bs).2.1)
      (defaultTable Category.network).cols row, ?_, ?_⟩
    · rw [hrow]
      rfl
    · rw [hrest]
      exact rowTime_coerceRow _ rest row k hcell
  | protocol =>
    obtain ⟨row, hrow, hcell⟩ := hagg ((aggregateTimeslice g t0 rate cs bs).2.2.1) (by simp)
    dsimp only
    refine ⟨coerceRow ((aggregateTimeslice g t0 rate cs bs).2.2.1)
      (defaultTable Category.protocol).cols row, ?_, ?_⟩
    · rw [hrow]
      rfl
    · rw [hrest]
      exact rowTime_coerceRow _ rest row k hcell
  | security =>
    obtain ⟨row, hrow, hcell⟩ := hagg ((aggregateTimeslice g t0 rate cs bs).2.2.2) (by simp)
    dsimp only
    refine ⟨coerceRow ((aggregateTimeslice g t0 rate cs bs).2.2.2)
      (defaultTable Category.security).cols row, ?_, ?_⟩
    · rw [hrow]
      rfl
    · rw [hrest]
      exact rowTime_coerceRow _ rest row k hcell

/-- Unpacking membership in the sample times of a slice. -/
theorem mem_sampleTimes {t0 : ℚ} {rate : ℤ} {n : ℕ} {t : ℚ}
    (h : t ∈ sampleTimes t0 rate n) :
    ∃ i : ℕ, i < n ∧ t = t0 + (i : ℚ) / (rate : ℚ) := by
  rw [sampleTimes] at h
  obtain ⟨i, hi, hti⟩ := List.mem_map.mp h
  exact ⟨i, List.mem_range.mp hi, hti.symm⟩

/-- C6: running the orchestrator at rate 1,000,000 Hz for 0.005 s with 0.01 s
bins and 0.01 s chunks yields exactly one row per category — a partial bin
with time 0.0, not zero rows: the single chunk is shorter than one bin width
and its samples aggregate into one partial bin. -/
theorem C6_partial_bin_run (g : TrigModel) :
    ∃ mf, (Orchestrator.mk 1000000 (1/200) (1/100) (1/100)).run g = some mf
      ∧ ∀ cat, ((mf.tableOf cat).rows.map rowTime) = [0] := by
  have hn : pyRound (((1000000 : ℤ) : ℚ) * (1/200)) = 5000 := by
    rw [show ((1000000 : ℤ) : ℚ) * (1/200) = ((5000 : ℤ) : ℚ) by push_cast; norm_num]
    exact pyRound_intCast 5000
  have hnle : ¬ pyRound (((1000000 : ℤ) : ℚ) * (1/200)) ≤ 0 := by
    rw [hn]; norm_num
  have hkeys : groupKeys ((sampleTimes 0 1000000
      (pyRound (((1000000 : ℤ) : ℚ) * (1/200))).toNat).map (binEdge 0 (1/100))) = [0] := by
    rw [hn]
    apply groupKeys_const
    · have hleng : ((sampleTimes 0 1000000 (Int.toNat 5000)).map (binEdge 0 (1/100))).length
          = 5000 := by
        rw [List.length_map, sampleTimes, List.length_map, List.length_range]
        rfl
      intro hcon
      rw [hcon] at hleng
      simp at hleng
    · intro x hx
      obtain ⟨t, ht, hxt⟩ := List.mem_map.mp hx
      obtain ⟨i, hi, hti⟩ := mem_sampleTimes ht
      rw [show Int.toNat 5000 = 5000 from rfl] at hi
      subst hxt
      rw [hti, binEdge]
      have harg : (0 + (i : ℚ) / ((1000000 : ℤ) : ℚ) - 0) / (1/100)
          = (i : ℚ) / 10000 := by
        push_cast
        ring
      rw [harg]
      have hfloor : ⌊(i : ℚ) / 10000⌋ = 0 := by
        apply Int.floor_eq_zero_iff.mpr
        rw [Set.mem_Ico]
        constructor
        · positivity
        · rw [div_lt_one (by norm_num)]
          have h5 : (i : ℚ) < 5000 := by exact_mod_cast hi
          linarith
      rw [hfloor]
      norm_num
  have hd : (0:ℚ) < (Orchestrator.mk 1000000 (1/200) (1/100) (1/100)).duration_s := by
    norm_num
  have hc : (0:ℚ) < (Orchestrator.mk 1000000 (1/200) (1/100) (1/100)).chunk_sec := by
    norm_num
  have hraw := runRaw_eq g (Orchestrator.mk 1000000 (1/200) (1/100) (1/100)) hd hc
  have hspans : chunkSpans (1/100) (runFuel (Orchestrator.mk 1000000 (1/200) (1/100) (1/100)))
      0 (1/200) = [(0, 1/200)] := by
    rw [show runFuel (Orchestrator.mk 1000000 (1/200) (1/100) (1/100))
      = ⌈(1/200 : ℚ) / (1/100)⌉₊ + 1 from rfl]
    rw [chunkSpans]
    rw [if_pos (by norm_num : (0:ℚ) < 1/200)]
    rw [show min (1/100 : ℚ) (1/200) = 1/200 from by norm_num [min_def]]
    rw [show (1/200 : ℚ) - 1/200 = 0 from by norm_num]
    rw [chunkSpans_nonpos _ _ _ 0 (by norm_num)]
  have hsingle := appendSlice_single_bin g 1000000 (1/100) 0 (1/200) 0 hnle hkeys
  refine ⟨sortAll (appendSlice g 1000000 (1/100) {} (0, 1/200)), ?_, ?_⟩
  · rw [Orchestrator.run, hraw]
    show Option.map sortAll (some (List.foldl (appendSlice g 1000000 (1/100)) {}
        (chunkSpans (1/100)
          (runFuel (Orchestrator.mk 1000000 (1/200) (1/100) (1/100))) 0 (1/200))))
      = some (sortAll (appendSlice g 1000000 (1/100) {} (0, 1/200)))
    rw [hspans]
    rfl
  · intro cat
    obtain ⟨r, hr, hrt⟩ := hsingle cat
    rw [sortAll_tableOf, hr]
    show List.map rowTime (sortRows [r]) = [0]
    rw [show sortRows [r] = [r] from rfl]
    simp [hrt]

/-- Writing one path does not disturb lookups of other paths. -/
theorem lookup_fsSet_ne (fs : FState) (p q : FilePathM) (d : FileData) (h : q ≠ p) :
    List.lookup q (fsSet fs p d) = List.lookup q fs := by
  induction fs with
  | nil =>
    have hb : (q == p) = false := beq_eq_false_iff_ne.mpr h
    simp [fsSet, List.lookup, hb]
  | cons hd tl ih =>
    obtain ⟨k, e⟩ := hd
    by_cases hk : k = p
    · subst hk
      have hb : (q == k) = false := beq_eq_false_iff_ne.mpr h
      simp [fsSet, List.lookup, hb]
    · by_cases hqk : q = k
      · subst hqk
        simp [fsSet, hk, List.lookup]
      · have hb : (q == k) = false := beq_eq_false_iff_ne.mpr hqk
        simp [fsSet, hk, List.lookup, hb, ih]

/-- An already-raised error short-circuits the remaining writes. -/
theorem writeOne_err (ow : Bool) (fs : FState) (e : WriteErr) (p : FilePathM)
    (d : FileData) : writeOne ow (fs, some e) p d = (fs, some e) := rfl

/-- A fresh target with overwrite disabled is serialized. -/
theorem writeOne_fresh (fs : FState) (p : FilePathM) (d : FileData)
    (hnone : List.lookup p fs = none) :
    writeOne false (fs, none) p d = (fsSet fs p d, none) := by
  simp [writeOne, hnone]

/-- An existing target with overwrite disabled raises before the write. -/
theorem writeOne_exists (fs : FState) (p : FilePathM) (d : FileData)
    (hp : (List.lookup p fs).isSome) :
    writeOne false (fs, none) p d = (fs, some (.fileExists p)) := by
  simp [writeOne, hp]

/-- With overwrite disabled, one `_write` step never changes a file that
already exists: it either writes a fresh path or raises before touching the
existing one. -/
theorem writeOne_preserves (st : FState × Option WriteErr) (p : FilePathM)
    (d : FileData) (q : FilePathM) (dq : FileData)
    (hq : List.lookup q st.1 = some dq) :
    List.lookup q (writeOne false st p d).1 = some dq := by
  rcases st with ⟨fs, err⟩
  cases err with
  | some e => simpa [writeOne] using hq
  | none =>
    by_cases hp : (List.lookup p fs).isSome
    · simpa [writeOne, hp] using hq
    · have hnone : List.lookup p fs = none := Option.not_isSome_iff_eq_none.mp hp
      have hne : q ≠ p := fun hqp => by rw [hqp, hnone] at hq; exact Option.noConfusion hq
      rw [writeOne_fresh fs p d hnone]
      show List.lookup q (fsSet fs p d) = some dq
      rw [lookup_fsSet_ne fs p q d hne]
      exact hq

/-- With overwrite disabled, the whole write sequence preserves every
pre-existing file byte-for-byte. -/
theorem writeFold_preserves (l : List (FilePathM × FileData)) :
    ∀ (st : FState × Option WriteErr) (q : FilePathM) (dq : FileData),
      List.lookup q st.1 = some dq →
      List.lookup q (l.foldl (fun st pd => writeOne false st pd.1 pd.2) st).1 = some dq := by
  induction l with
  | nil => intro st q dq h; simpa using h
  | cons hd tl ih =>
    intro st q dq h
    rw [List.foldl_cons]
    exact ih _ q dq (writeOne_preserves st hd.1 hd.2 q dq h)

/-- With overwrite disabled, if any scheduled target already exists the write
sequence raises. -/
theorem writeFold_err (l : List (FilePathM × FileData)) :
    ∀ (st : FState × Option WriteErr),
      ((∃ pd ∈ l, (List.lookup pd.1 st.1).isSome) ∨ st.2.isSome) →
      (l.foldl (fun st pd => writeOne false st pd.1 pd.2) st).2.isSome := by
  induction l with
  | nil =>
    intro st h
    rcases h with ⟨pd, hmem, _⟩ | h
    · simp at hmem
    · simpa using h
  | cons hd tl ih =>
    intro st h
    rw [List.foldl_cons]
    rcases st with ⟨fs, err⟩
    cases err with
    | some e =>
      apply ih
      right
      simp [writeOne]
    | none =>
      by_cases hp : (List.lookup hd.1 fs).isSome
      · apply ih
        right
        simp [writeOne, hp]
      · have hnone : List.lookup hd.1 fs = none := Option.not_isSome_iff_eq_none.mp hp
        rcases h with ⟨pd, hmem, hsome⟩ | h
        · rcases List.mem_cons.mp hmem with hpd | hpd
          · subst hpd
            rw [hnone] at hsome
            simp at hsome
          · apply ih
            left
            refine ⟨pd, hpd, ?_⟩
            have hne : pd.1 ≠ hd.1 := by
              intro hcon
              rw [hcon, hnone] at hsome
              simp at hsome
            rw [writeOne_fresh fs hd.1 hd.2 hnone]
            show (List.lookup pd.1 (fsSet fs hd.1 hd.2)).isSome = true
            rw [lookup_fsSet_ne fs hd.1 pd.1 hd.2 hne]
            exact hsome
        · simp at h

/-- C8: calling `write` with overwrite disabled when some per-category target
file already exists fails with the persistence error (`FileExistsError`),
raised before writing that file, and every file that existed at the
destination before the call — in particular all files of a previous write —
is byte-identical afterwards (its stored contents are unchanged). -/
theorem C8_no_overwrite_fails_and_preserves (fs : FState) (dir fmt : String)
    (mf : MetricFrame)
    (hex : ∃ pd ∈ artifactList dir (if fmt = "parquet" then "parquet" else "csv") mf,
      (List.lookup pd.1 fs).isSome) :
    ((ResultWriter.write fs dir fmt mf false).2.isSome = true)
    ∧ ∀ (p : FilePathM) (d : FileData), List.lookup p fs = some d →
        List.lookup p (ResultWriter.write fs dir fmt mf false).1 = some d := by
  by_cases hfmt : fmt = "parquet"
  · rw [if_pos hfmt] at hex
    constructor
    · rw [ResultWriter.write, if_pos hfmt, writeFrame]
      exact writeFold_err _ (fs, none) (Or.inl hex)
    · intro p d hp
      rw [ResultWriter.write, if_pos hfmt, writeFrame]
      exact writeFold_preserves _ (fs, none) p d hp
  · rw [if_neg hfmt] at hex
    constructor
    · rw [ResultWriter.write, if_neg hfmt, writeFrame]
      exact writeFold_err _ (fs, none) (Or.inl hex)
    · intro p d hp
      rw [ResultWriter.write, if_neg hfmt, writeFrame]
      exact writeFold_preserves _ (fs, none) p d hp

/-- C1 witness: the sortedness and stability theorem instantiated at rate 1,
duration 1, bin width 1, chunk width 1 with the zero trig model. -/
theorem C1_run_sorted_stable_witness :
    ∃ raw mf, (Orchestrator.mk 1 1 1 1).runRaw ⟨fun _ => 0, fun _ => 0⟩ = some raw
      ∧ (Orchestrator.mk 1 1 1 1).run ⟨fun _ => 0, fun _ => 0⟩ = some mf
      ∧ (∀ cat, List.Pairwise (fun a b => rowTime a ≤ rowTime b) (mf.tableOf cat).rows)
      ∧ (∀ cat (e : ℚ), ((mf.tableOf cat).rows.filter fun x => decide (rowTime x = e))
          = ((raw.tableOf cat).rows.filter fun x => decide (rowTime x = e))) :=
  C1_run_sorted_stable ⟨fun _ => 0, fun _ => 0⟩ (Orchestrator.mk 1 1 1 1)
    (by norm_num) (by norm_num) (by norm_num) (by norm_num)

/-- C2 witness: the append-coercion theorem instantiated on a fresh store,
the physical category, and a one-row incoming table holding only a time
column. -/
theorem C2_append_coerces_to_schema_witness :
    ((appendCat {} Category.physical
        ⟨[("time", Dtype.f64)], [[("time", Val.num 0)]]⟩).tableOf Category.physical).names
      = schemaNames Category.physical
    ∧ ((appendCat {} Category.physical
        ⟨[("time", Dtype.f64)], [[("time", Val.num 0)]]⟩).tableOf Category.physical).rows
      = (({} : MetricFrame).tableOf Category.physical).rows
        ++ [[("time", Val.num 0)]].map (coerceRow ⟨[("time", Dtype.f64)], [[("time", Val.num 0)]]⟩
            (({} : MetricFrame).tableOf Category.physical).cols)
    ∧ (∀ r ∈ [[("time", Val.num 0)]].map (coerceRow ⟨[("time", Dtype.f64)], [[("time", Val.num 0)]]⟩
          (({} : MetricFrame).tableOf Category.physical).cols),
        r.map Prod.fst = schemaNames Category.physical)
    ∧ (∀ c ∈ schemaNames Category.physical,
        (∀ row ∈ [[("time", Val.num 0)]], List.lookup c row = none) →
        ∀ r ∈ [[("time", Val.num 0)]].map (coerceRow ⟨[("time", Dtype.f64)], [[("time", Val.num 0)]]⟩
            (({} : MetricFrame).tableOf Category.physical).cols),
          List.lookup c r = some .na) :=
  C2_append_coerces_to_schema {} Category.physical
    ⟨[("time", Dtype.f64)], [[("time", Val.num 0)]]⟩ (by simp) (by rfl)

/-- C3 witness for the amended statement: rate 0 with unit duration and
widths completes with an all-empty store. -/
theorem C3_amended_no_validation_witness :
    ∃ mf, (Orchestrator.mk 0 1 1 1).run ⟨fun _ => 0, fun _ => 0⟩ = some mf
      ∧ ∀ cat, (mf.tableOf cat).rows = [] :=
  C3_amended_no_validation ⟨fun _ => 0, fun _ => 0⟩ (Orchestrator.mk 0 1 1 1)
    (by norm_num) (by norm_num) (by norm_num) (by norm_num)

/-- C4 witness: the bin-edge theorem instantiated at start 0, rate 1, chunk
width 1, bin width 1 with the zero trig model. -/
theorem C4_rows_are_distinct_bin_edges_witness :
    List.Pairwise (fun a b => rowTime a < rowTime b)
        (aggregateTimeslice ⟨fun _ => 0, fun _ => 0⟩ 0 1 1 1).1.rows
    ∧ ∀ row ∈ (aggregateTimeslice ⟨fun _ => 0, fun _ => 0⟩ 0 1 1 1).1.rows,
        ∃ t ∈ sampleTimes 0 1 (pyRound (((1 : ℤ) : ℚ) * 1)).toNat,
          rowTime row = binEdge 0 1 t :=
  C4_rows_are_distinct_bin_edges ⟨fun _ => 0, fun _ => 0⟩ 0 1 1 1
    (by rw [show ((1 : ℤ) : ℚ) * 1 = ((1 : ℤ) : ℚ) by ring, pyRound_intCast]; norm_num)
    (aggregateTimeslice ⟨fun _ => 0, fun _ => 0⟩ 0 1 1 1).1
    (List.mem_cons_self _ _)

/-- C8 witness: the persistence theorem instantiated on a state already
holding the security artifact of the destination. -/
theorem C8_no_overwrite_fails_and_preserves_witness :
    ((ResultWriter.write [(("out", "security." ++ "parquet"), emptySecurity)]
        "out" "parquet" {} false).2.isSome = true)
    ∧ ∀ (p : FilePathM) (d : FileData),
        List.lookup p [(("out", "security." ++ "parquet"), emptySecurity)] = some d →
        List.lookup p (ResultWriter.write [(("out", "security." ++ "parquet"), emptySecurity)]
          "out" "parquet" {} false).1 = some d :=
  C8_no_overwrite_fails_and_preserves
    [(("out", "security." ++ "parquet"), emptySecurity)] "out" "parquet" {}
    ⟨(("out", "security." ++ "parquet"), ({} : MetricFrame).security),
      by simp [artifactList], by simp [List.lookup]⟩

/-- C9 witness: the chunk-independence theorem instantiated at rate 1,
duration 1, bin width 1, chunk width 1 with the zero trig model. -/
theorem C9_chunks_pure_independent_witness :
    (Orchestrator.mk 1 1 1 1).runRaw ⟨fun _ => 0, fun _ => 0⟩
      = some ((chunkSpans (Orchestrator.mk 1 1 1 1).chunk_sec
          (runFuel (Orchestrator.mk 1 1 1 1)) 0 (Orchestrator.mk 1 1 1 1).duration_s).foldl
          (appendSlice ⟨fun _ => 0, fun _ => 0⟩ (Orchestrator.mk 1 1 1 1).pulse_rate_hz
            (Orchestrator.mk 1 1 1 1).bin_sec) {})
    ∧ (Orchestrator.mk 1 1 1 1).run ⟨fun _ => 0, fun _ => 0⟩
      = some (sortAll ((chunkSpans (Orchestrator.mk 1 1 1 1).chunk_sec
          (runFuel (Orchestrator.mk 1 1 1 1)) 0 (Orchestrator.mk 1 1 1 1).duration_s).foldl
          (appendSlice ⟨fun _ => 0, fun _ => 0⟩ (Orchestrator.mk 1 1 1 1).pulse_rate_hz
            (Orchestrator.mk 1 1 1 1).bin_sec) {}))
    ∧ (∀ mf p, appendSlice ⟨fun _ => 0, fun _ => 0⟩ (Orchestrator.mk 1 1 1 1).pulse_rate_hz
          (Orchestrator.mk 1 1 1 1).bin_sec mf p
        = mf.append
            (some (aggregateTimeslice ⟨fun _ => 0, fun _ => 0⟩ p.1
              (Orchestrator.mk 1 1 1 1).pulse_rate_hz p.2 (Orchestrator.mk 1 1 1 1).bin_sec).1)
            (some (aggregateTimeslice ⟨fun _ => 0, fun _ => 0⟩ p.1
              (Orchestrator.mk 1 1 1 1).pulse_rate_hz p.2 (Orchestrator.mk 1 1 1 1).bin_sec).2.1)
            (some (aggregateTimeslice ⟨fun _ => 0, fun _ => 0⟩ p.1
              (Orchestrator.mk 1 1 1 1).pulse_rate_hz p.2 (Orchestrator.mk 1 1 1 1).bin_sec).2.2.1)
            (some (aggregateTimeslice ⟨fun _ => 0, fun _ => 0⟩ p.1
              (Orchestrator.mk 1 1 1 1).pulse_rate_hz p.2
              (Orchestrator.mk 1 1 1 1).bin_sec).2.2.2)) :=
  C9_chunks_pure_independent ⟨fun _ => 0, fun _ => 0⟩ (Orchestrator.mk 1 1 1 1)
    (by norm_num) (by norm_num)

/-- C10 witness: the extra-column theorem instantiated on a fresh store, the
physical category, and a table holding one extra column. -/
theorem C10_extra_columns_discarded_witness :
    appendCat {} Category.physical
      (restrictTable ⟨[("extra", Dtype.f64)], [[("extra", Val.num 7)]]⟩
        (schemaNames Category.physical))
      = appendCat {} Category.physical ⟨[("extra", Dtype.f64)], [[("extra", Val.num 7)]]⟩
    ∧ ((appendCat {} Category.physical
        ⟨[("extra", Dtype.f64)], [[("extra", Val.num 7)]]⟩).tableOf Category.physical).names
      = schemaNames Category.physical :=
  C10_extra_columns_discarded {} Category.physical
    ⟨[("extra", Dtype.f64)], [[("extra", Val.num 7)]]⟩ (by rfl)

/-- Half-even rounding is within half a unit of the exact quotient. -/
theorem rndHE_bound (a b : ℤ) (hb : 0 < b) :
    |((rndHE a b : ℤ) : ℚ) - (a : ℚ) / (b : ℚ)| ≤ 1/2 := by
  have hbq : (0:ℚ) < (b:ℚ) := by exact_mod_cast hb
  have hbne : (b:ℚ) ≠ 0 := ne_of_gt hbq
  have hfd := Int.fdiv_add_fmod a b
  have hr0 : 0 ≤ a.fmod b := by
    rw [Int.fmod_eq_emod _ hb.le]
    exact Int.emod_nonneg a (ne_of_gt hb)
  have hrb : a.fmod b < b := Int.fmod_lt_of_pos a hb
  set q := a.fdiv b with hqdef
  set r := a - q * b with hrdef
  have hreq : r = a.fmod b := by
    rw [hrdef, mul_comm q b]
    linarith [hfd]
  have hcast : (a:ℚ) = (b:ℚ) * q + r := by
    rw [hreq]
    exact_mod_cast hfd.symm
  have hkey : (a : ℚ) / b = (q : ℚ) + (r : ℚ) / b := by
    rw [hcast]
    field_simp
    ring
  have hr0q : (0:ℚ) ≤ (r:ℚ) := by rw [hreq]; exact_mod_cast hr0
  have hrbq : (r:ℚ) < (b:ℚ) := by rw [hreq]; exact_mod_cast hrb
  have hdivnn : (0:ℚ) ≤ (r:ℚ)/b := div_nonneg hr0q hbq.le
  have hlt1 : (r:ℚ)/b < 1 := (div_lt_one hbq).mpr hrbq
  have hred : rndHE a b = if 2 * r < b then q else if b < 2 * r then q + 1
      else if q % 2 = 0 then q else q + 1 := by
    rw [rndHE]
  rw [hred, hkey]
  by_cases h1 : 2 * r < b
  · rw [if_pos h1]
    have h1q : (r:ℚ) / b < 1/2 := by
      rw [div_lt_div_iff hbq (by norm_num : (0:ℚ) < 2)]
      have : (2:ℚ) * r < b := by exact_mod_cast h1
      linarith
    rw [abs_le]
    constructor <;> linarith
  · rw [if_neg h1]
    have h1q : (1:ℚ)/2 ≤ (r:ℚ) / b := by
      rw [div_le_div_iff (by norm_num : (0:ℚ) < 2) hbq]
      have : (b:ℚ) ≤ 2 * r := by exact_mod_cast not_lt.mp h1
      linarith
    by_cases h2 : b < 2 * r
    · rw [if_pos h2]
      rw [abs_le]
      push_cast
      constructor <;> linarith
    · have h2q : (r:ℚ) / b ≤ 1/2 := by
        rw [div_le_div_iff hbq (by norm_num : (0:ℚ) < 2)]
        have : (2:ℚ) * r ≤ b := by exact_mod_cast not_lt.mp h2
        linarith
      rw [if_neg h2]
      by_cases h3 : q % 2 = 0
      · rw [if_pos h3]
        rw [abs_le]
        constructor <;> linarith
      · rw [if_neg h3]
        rw [abs_le]
        push_cast
        constructor <;> linarith

/-- The boolean binade test agrees with the rational comparison. -/
theorem le2pow_iff (a b : ℤ) (hb : 0 < b) (e : ℤ) :
    le2pow a b e = true ↔ (2:ℚ) ^ e ≤ (a:ℚ) / b := by
  have hbq : (0:ℚ) < (b:ℚ) := by exact_mod_cast hb
  unfold le2pow
  by_cases he : 0 ≤ e
  · rw [if_pos he, decide_eq_true_eq]
    have hcast : ((2:ℚ)) ^ e = ((2:ℚ)) ^ e.toNat := by
      rw [← zpow_natCast, Int.toNat_of_nonneg he]
    rw [hcast, le_div_iff₀ hbq]
    constructor
    · intro h
      calc (2:ℚ) ^ e.toNat * b = (b:ℚ) * 2 ^ e.toNat := by ring
        _ ≤ a := by exact_mod_cast h
    · intro h
      have h2 : ((b * 2 ^ e.toNat : ℤ) : ℚ) ≤ (a : ℚ) := by
        push_cast
        calc ((b:ℚ)) * 2 ^ e.toNat = 2 ^ e.toNat * b := by ring
          _ ≤ a := h
      exact_mod_cast h2
  · rw [if_neg he, decide_eq_true_eq]
    have hm : ((-e).toNat : ℤ) = -e := Int.toNat_of_nonneg (by omega)
    have hcast : ((2:ℚ)) ^ ((-e).toNat) = ((2:ℚ)) ^ (-e : ℤ) := by
      rw [← zpow_natCast, hm]
    have h2e : (0:ℚ) < (2:ℚ) ^ e := zpow_pos (by norm_num) e
    have h2me : (0:ℚ) < (2:ℚ) ^ (-e : ℤ) := zpow_pos (by norm_num) (-e)
    have hinv : (2:ℚ) ^ e * 2 ^ (-e : ℤ) = 1 := by
      rw [← zpow_add₀ (by norm_num : (2:ℚ) ≠ 0)]
      simp
    constructor
    · intro h
      have hq0 : ((b:ℤ):ℚ) ≤ ((a * 2 ^ (-e).toNat : ℤ) : ℚ) := by exact_mod_cast h
      push_cast at hq0
      rw [hcast] at hq0
      rw [le_div_iff₀ hbq]
      calc (2:ℚ) ^ e * b ≤ 2 ^ e * ((a:ℚ) * 2 ^ (-e : ℤ)) :=
            mul_le_mul_of_nonneg_left hq0 h2e.le
        _ = (a : ℚ) * (2 ^ e * 2 ^ (-e : ℤ)) := by ring
        _ = (a : ℚ) := by rw [hinv, mul_one]
    · intro h
      rw [le_div_iff₀ hbq] at h
      have hq : (b : ℚ) ≤ (a : ℚ) * 2 ^ (-e : ℤ) := by
        have h2 := mul_le_mul_of_nonneg_right h h2me.le
        calc (b:ℚ) = 2 ^ e * b * 2 ^ (-e:ℤ) := by
              rw [show (2:ℚ) ^ e * b * 2 ^ (-e:ℤ) = b * (2 ^ e * 2 ^ (-e:ℤ)) by ring,
                hinv, mul_one]
          _ ≤ (a:ℚ) * 2 ^ (-e:ℤ) := h2
      have h3 : ((b:ℤ):ℚ) ≤ ((a * 2 ^ (-e).toNat : ℤ):ℚ) := by
        push_cast
        rw [hcast]
        exact hq
      exact_mod_cast h3

/-- The binary search narrows to the exact binade: its answer satisfies the
test while its successor does not, whenever the bracket is valid and the fuel
covers the bracket width. -/
theorem searchExp_invariant (a b : ℤ) :
    ∀ (fuel : ℕ) (lo hi : ℤ), le2pow a b lo = true → le2pow a b hi = false →
      lo < hi → hi - lo ≤ 2 ^ fuel →
      le2pow a b (searchExp a b fuel lo hi) = true
        ∧ le2pow a b (searchExp a b fuel lo hi + 1) = false := by
  intro fuel
  induction fuel with
  | zero =>
    intro lo hi hlo hhi hlt hgap
    have hhi1 : hi = lo + 1 := by omega
    refine ⟨hlo, ?_⟩
    rw [searchExp, ← hhi1]
    exact hhi
  | succ n ih =>
    intro lo hi hlo hhi hlt hgap
    rw [searchExp]
    by_cases hnarrow : hi - lo ≤ 1
    · rw [if_pos hnarrow]
      have hhi1 : hi = lo + 1 := by omega
      exact ⟨hlo, by rw [← hhi1]; exact hhi⟩
    · rw [if_neg hnarrow]
      have hKgap : hi - lo ≤ 2 * 2 ^ n := by
        have : (2:ℤ) ^ (n + 1) = 2 ^ n * 2 := pow_succ 2 n
        omega
      have hKpos : (0:ℤ) < 2 ^ n := by positivity
      by_cases hmid : le2pow a b (lo + (hi - lo) / 2) = true
      · rw [if_pos hmid]
        exact ih (lo + (hi - lo) / 2) hi hmid hhi (by omega) (by omega)
      · rw [if_neg hmid]
        exact ih lo (lo + (hi - lo) / 2) hlo (Bool.eq_false_iff.mpr
          (fun hcon => hmid hcon)) (by omega) (by omega)

/-- The computed exponent brackets the positive rational `a/b` in its binade,
for values whose exponent lies inside the supported search range. -/
theorem ilog2Q_spec (a b : ℤ) (_ha : 0 < a) (hb : 0 < b)
    (hlo : b ≤ a * 2 ^ 600) (hhi : a < b * 2 ^ 600) :
    (2:ℚ) ^ (ilog2Q a b) ≤ (a:ℚ) / b
      ∧ (a:ℚ) / b < (2:ℚ) ^ (ilog2Q a b + 1) := by
  have hbq : (0:ℚ) < (b:ℚ) := by exact_mod_cast hb
  have hloB : le2pow a b (-600) = true := by
    rw [le2pow, if_neg (by norm_num : ¬ (0:ℤ) ≤ -600), decide_eq_true_eq]
    rw [show (-(-600:ℤ)).toNat = 600 from rfl]
    exact hlo
  have hhiB : le2pow a b 600 = false := by
    rw [le2pow, if_pos (by norm_num : (0:ℤ) ≤ 600)]
    rw [show ((600:ℤ)).toNat = 600 from rfl]
    simp only [decide_eq_false_iff_not, not_le]
    exact hhi
  have hmain := searchExp_invariant a b 16 (-600) 600 hloB hhiB (by norm_num)
    (by norm_num)
  constructor
  · exact (le2pow_iff a b hb _).mp hmain.1
  · have := hmain.2
    by_contra hcon
    push_neg at hcon
    rw [← le2pow_iff a b hb _] at hcon
    rw [show searchExp a b 16 (-600) 600 = ilog2Q a b from rfl] at this
    rw [this] at hcon
    exact Bool.noConfusion hcon

/-- Natural-exponent form of an integer power of two with a non-negative
exponent. -/
theorem two_zpow_toNat (s : ℤ) (hs : 0 ≤ s) : ((2:ℚ)) ^ s.toNat = (2:ℚ) ^ s := by
  rw [← zpow_natCast, Int.toNat_of_nonneg hs]

/-- Comparing powers of two compares their integer exponents. -/
theorem two_zpow_lt (x y : ℤ) (h : (2:ℚ) ^ x < (2:ℚ) ^ y) : x < y := by
  by_contra hcon
  push_neg at hcon
  exact absurd (zpow_le_zpow_right₀ (by norm_num : (1:ℚ) ≤ 2) hcon) (not_le.mpr h)

/-- IEEE rounding of a positive rational to a `p`-bit significand has
relative error at most `2^-p` (the model covers exponents within the search
range and results representable at the fixed scale). -/
theorem flRound_err (p : ℕ) (hp : 1 ≤ p) (a b : ℤ) (ha : 0 < a) (hb : 0 < b)
    (hlo : b ≤ a * 2 ^ 600) (hhi : a < b * 2 ^ 600)
    (hsc : (2:ℤ) ^ (p - 1) * b ≤ a * 2 ^ FSCALE) :
    |((flRound p a b : ℤ) : ℚ) / 2 ^ FSCALE - (a : ℚ) / b|
      ≤ (a : ℚ) / b * ((1:ℚ) / 2 ^ p) := by
  have hbq : (0:ℚ) < (b:ℚ) := by exact_mod_cast hb
  have haq : (0:ℚ) < (a:ℚ) := by exact_mod_cast ha
  have hane : ¬ (a = 0) := by omega
  have hnabs : ((a.natAbs : ℤ)) = a := Int.natAbs_of_nonneg ha.le
  obtain ⟨heL, heU⟩ := ilog2Q_spec a b ha hb hlo hhi
  set e := ilog2Q a b with hedef
  have hsle : (p:ℤ) - 1 - e ≤ (FSCALE : ℤ) := by
    have hcast : (2:ℚ) ^ ((p:ℕ) - 1) * b ≤ (a:ℚ) * 2 ^ (FSCALE:ℕ) := by
      exact_mod_cast hsc
    have hab2 : (2:ℚ) ^ ((p:ℕ) - 1) ≤ (a:ℚ)/b * 2 ^ (FSCALE:ℕ) := by
      rw [div_mul_eq_mul_div, le_div_iff₀ hbq]
      linarith
    have hzn1 : ((2:ℚ)) ^ ((p:ℤ) - 1) = (2:ℚ) ^ ((p:ℕ) - 1) := by
      rw [← two_zpow_toNat ((p:ℤ) - 1) (by omega)]
      congr 1
      omega
    have hzn2 : (2:ℚ) ^ (FSCALE:ℕ) = (2:ℚ) ^ ((FSCALE:ℤ)) := by
      rw [← two_zpow_toNat ((FSCALE:ℤ)) (by norm_num)]
      rfl
    have hscQ : ((2:ℚ)) ^ ((p:ℤ) - 1) < 2 ^ (e + 1 + (FSCALE:ℤ)) := by
      calc ((2:ℚ)) ^ ((p:ℤ) - 1) = 2 ^ ((p:ℕ) - 1) := hzn1
        _ ≤ (a:ℚ)/b * 2 ^ (FSCALE:ℕ) := hab2
        _ < 2 ^ (e+1) * 2 ^ (FSCALE:ℕ) := by
            exact mul_lt_mul_of_pos_right heU (by positivity)
        _ = 2 ^ (e+1) * 2 ^ ((FSCALE:ℤ)) := by rw [hzn2]
        _ = 2 ^ (e + 1 + (FSCALE:ℤ)) := by
            rw [← zpow_add₀ (by norm_num : (2:ℚ) ≠ 0)]
    have := two_zpow_lt _ _ hscQ
    omega
  have hfl : flRound p a b
      = (if 0 ≤ (p:ℤ) - 1 - e
         then rndHE (a * 2 ^ (((p:ℤ) - 1 - e).toNat)) b
              * 2 ^ (FSCALE - (((p:ℤ) - 1 - e).toNat))
         else rndHE a (b * 2 ^ ((-((p:ℤ) - 1 - e)).toNat))
              * 2 ^ (FSCALE + ((-((p:ℤ) - 1 - e)).toNat))) := by
    rw [flRound, if_neg hane, hnabs, ← hedef]
  have h2ppos : (0:ℚ) < (2:ℚ) ^ p := by positivity
  have h2pinv : ((2:ℚ)) ^ (-(p:ℤ)) = 1 / 2 ^ p := by
    rw [zpow_neg, zpow_natCast]
    exact inv_eq_one_div _
  by_cases hs0 : 0 ≤ (p:ℤ) - 1 - e
  · rw [hfl, if_pos hs0]
    set sN := (((p:ℤ) - 1 - e).toNat) with hsNdef
    have hsN : (sN : ℤ) = (p:ℤ) - 1 - e := Int.toNat_of_nonneg hs0
    have hsNle : sN ≤ FSCALE := by omega
    have h2sN : (0:ℚ) < (2:ℚ) ^ sN := by positivity
    have hXb := rndHE_bound (a * 2 ^ sN) b hb
    have hval : ((rndHE (a * 2 ^ sN) b * 2 ^ (FSCALE - sN) : ℤ) : ℚ) / 2 ^ FSCALE
        = ((rndHE (a * 2 ^ sN) b : ℤ) : ℚ) / 2 ^ sN := by
      push_cast
      rw [div_eq_div_iff (by positivity : ((2:ℚ) ^ FSCALE) ≠ 0)
        (ne_of_gt h2sN)]
      rw [mul_assoc, ← pow_add]
      rw [show FSCALE - sN + sN = FSCALE from by omega]
    rw [hval]
    have hXQ : ((a * 2 ^ sN : ℤ) : ℚ) = (a : ℚ) * 2 ^ sN := by push_cast; ring
    rw [hXQ] at hXb
    have hsplit : ((rndHE (a * 2 ^ sN) b : ℤ) : ℚ) / 2 ^ sN - (a:ℚ)/b
        = (((rndHE (a * 2 ^ sN) b : ℤ) : ℚ) - (a:ℚ) * 2 ^ sN / b) / 2 ^ sN := by
      field_simp
      ring
    rw [hsplit, abs_div, abs_of_pos h2sN, div_le_iff₀ h2sN]
    have hgoal : ((2:ℚ)) ^ ((p:ℤ) - 1) ≤ (a:ℚ)/b * 2 ^ ((p:ℤ) - 1 - e) := by
      calc ((2:ℚ)) ^ ((p:ℤ) - 1) = 2 ^ e * 2 ^ ((p:ℤ) - 1 - e) := by
            rw [← zpow_add₀ (by norm_num : (2:ℚ) ≠ 0)]
            congr 1
            omega
        _ ≤ (a:ℚ)/b * 2 ^ ((p:ℤ) - 1 - e) :=
            mul_le_mul_of_nonneg_right heL (zpow_pos (by norm_num) _).le
    have h2p1 : ((2:ℚ)) ^ ((p:ℤ) - 1) = 2 ^ p / 2 := by
      rw [show ((p:ℤ) - 1) = (p:ℤ) + (-1) from by ring,
        zpow_add₀ (by norm_num : (2:ℚ) ≠ 0), zpow_natCast]
      norm_num
      ring
    rw [h2p1, ← two_zpow_toNat ((p:ℤ) - 1 - e) hs0, ← hsNdef] at hgoal
    calc |((rndHE (a * 2 ^ sN) b : ℤ) : ℚ) - (a:ℚ) * 2 ^ sN / b| ≤ 1/2 := hXb
      _ ≤ (a:ℚ)/b * (1 / 2 ^ p) * 2 ^ sN := by
          rw [show (a:ℚ)/b * (1 / 2 ^ p) * 2 ^ sN = ((a:ℚ)/b * 2 ^ sN) / 2 ^ p
            from by ring, le_div_iff₀ h2ppos]
          linarith
  · rw [hfl, if_neg hs0]
    set m := ((-(((p:ℤ) - 1 - e))).toNat) with hmdef
    have hm : (m : ℤ) = -((p:ℤ) - 1 - e) := Int.toNat_of_nonneg (by omega)
    have hBpos : (0:ℤ) < b * 2 ^ m := by positivity
    have hXb := rndHE_bound a (b * 2 ^ m) hBpos
    have h2m : (0:ℚ) < (2:ℚ) ^ m := by positivity
    have hval : ((rndHE a (b * 2 ^ m) * 2 ^ (FSCALE + m) : ℤ) : ℚ) / 2 ^ FSCALE
        = ((rndHE a (b * 2 ^ m) : ℤ) : ℚ) * 2 ^ m := by
      push_cast
      rw [pow_add, div_eq_iff (by positivity : ((2:ℚ) ^ FSCALE) ≠ 0)]
      ring
    rw [hval]
    have hBQ : ((b * 2 ^ m : ℤ) : ℚ) = (b:ℚ) * 2 ^ m := by push_cast; ring
    rw [hBQ] at hXb
    have hab2 : (a:ℚ)/((b:ℚ) * 2^m) * 2^m = (a:ℚ)/b := by
      field_simp
      ring
    have hsplit : ((rndHE a (b * 2 ^ m) : ℤ) : ℚ) * 2 ^ m - (a:ℚ)/b
        = (((rndHE a (b * 2 ^ m) : ℤ) : ℚ) - (a:ℚ)/((b:ℚ) * 2^m)) * 2 ^ m := by
      rw [sub_mul, hab2]
    rw [hsplit, abs_mul, abs_of_pos h2m]
    have hfin : (1:ℚ)/2 * 2 ^ m ≤ (a:ℚ)/b * (1 / 2 ^ p) := by
      have hzm : ((2:ℚ)) ^ m = 2 ^ ((m:ℤ)) := by
        rw [← two_zpow_toNat ((m:ℤ)) (Int.natCast_nonneg m), Int.toNat_natCast]
      have hkey : (1:ℚ)/2 * 2 ^ m = 2 ^ e * 2 ^ (-(p:ℤ)) := by
        rw [hzm, show ((2:ℚ)) ^ ((m:ℤ)) = 2 ^ (e - (p:ℤ) + 1) from by rw [hm]; congr 1; omega]
        rw [show (2:ℚ) ^ e * 2 ^ (-(p:ℤ)) = 2 ^ (e + (-(p:ℤ))) from
          (zpow_add₀ (by norm_num : (2:ℚ) ≠ 0) _ _).symm]
        rw [show (1:ℚ)/2 = 2 ^ (-1 : ℤ) from by norm_num]
        rw [← zpow_add₀ (by norm_num : (2:ℚ) ≠ 0)]
        congr 1
        omega
      rw [hkey, h2pinv]
      exact mul_le_mul_of_nonneg_right heL (by positivity)
    calc |((rndHE a (b * 2 ^ m) : ℤ) : ℚ) - (a:ℚ)/((b:ℚ) * 2^m)| * 2 ^ m
        ≤ 1/2 * 2 ^ m := mul_le_mul_of_nonneg_right hXb h2m.le
      _ ≤ (a:ℚ)/b * (1 / 2 ^ p) := hfin


theorem flRound_bounds (p : ℕ) (hp : 1 ≤ p) (a b : ℤ) (ha : 0 < a) (hb : 0 < b)
    (hlo : b ≤ a * 2 ^ 600) (hhi : a < b * 2 ^ 600)
    (hsc : (2:ℤ) ^ (p - 1) * b ≤ a * 2 ^ FSCALE) :
    (a : ℚ) / b * (1 - (1:ℚ) / 2 ^ p) ≤ fq (flRound p a b) ∧
      fq (flRound p a b) ≤ (a : ℚ) / b * (1 + (1:ℚ) / 2 ^ p) := by
  have h := flRound_err p hp a b ha hb hlo hhi hsc
  rw [abs_le] at h
  unfold fq
  constructor <;> nlinarith [h.1, h.2]

theorem flRound_lit (p : ℕ) (hp : 1 ≤ p) (a b : ℤ) (ha : 0 < a) (hb : 0 < b)
    (hlo : b ≤ a * 2 ^ 600) (hhi : a < b * 2 ^ 600)
    (hsc : (2:ℤ) ^ (p - 1) * b ≤ a * 2 ^ FSCALE)
    (m M lo hi : ℚ) (hm : m ≤ (a : ℚ) / b) (hM : (a : ℚ) / b ≤ M)
    (hlo2 : lo ≤ m * (1 - (1:ℚ) / 2 ^ p)) (hhi2 : M * (1 + (1:ℚ) / 2 ^ p) ≤ hi) :
    lo ≤ fq (flRound p a b) ∧ fq (flRound p a b) ≤ hi := by
  obtain ⟨h1, h2⟩ := flRound_bounds p hp a b ha hb hlo hhi hsc
  have h21 : (1:ℚ) ≤ 2 ^ p := by
    calc (1:ℚ) = 1 ^ p := (one_pow p).symm
    _ ≤ 2 ^ p := pow_le_pow_left (by norm_num) (by norm_num) p
  have hp1 : (0:ℚ) ≤ 1 - 1 / 2 ^ p := by
    have hd : (1:ℚ) / 2 ^ p ≤ 1 := by
      rw [div_le_one (by positivity)]
      exact h21
    linarith
  have hp2 : (0:ℚ) ≤ 1 + 1 / 2 ^ p := by positivity
  constructor
  · exact le_trans hlo2 (le_trans (mul_le_mul_of_nonneg_right hm hp1) h1)
  · exact le_trans h2 (le_trans (mul_le_mul_of_nonneg_right hM hp2) hhi2)

theorem fq_pos (A : ℤ) (c : ℚ) (hc : 0 < c) (h : c ≤ fq A) : 0 < A := by
  have h2 : (0:ℚ) < (A : ℚ) / 2 ^ FSCALE := lt_of_lt_of_le hc h
  rw [lt_div_iff₀ (by positivity : (0:ℚ) < (2:ℚ) ^ FSCALE), zero_mul] at h2
  exact_mod_cast h2

theorem fq_lt_one (A : ℤ) (h : fq A < 1) : A < 2 ^ FSCALE := by
  rw [fq, div_lt_one (by positivity : (0:ℚ) < (2:ℚ) ^ FSCALE)] at h
  have h2 : (A : ℚ) < ((2 ^ FSCALE : ℤ) : ℚ) := by push_cast; exact h
  exact_mod_cast h2

theorem fq_ge (A : ℤ) (c : ℚ) (h : c ≤ fq A) : c * 2 ^ FSCALE ≤ (A : ℚ) := by
  rw [fq, le_div_iff₀ (by positivity : (0:ℚ) < (2:ℚ) ^ FSCALE)] at h
  exact h

theorem fq_le (A : ℤ) (c : ℚ) (h : fq A ≤ c) : (A : ℚ) ≤ c * 2 ^ FSCALE := by
  rw [fq, div_le_iff₀ (by positivity : (0:ℚ) < (2:ℚ) ^ FSCALE)] at h
  exact h

theorem side_lo (a b : ℤ) (ha : 0 < a) (hb : b ≤ 2 ^ 600) : b ≤ a * 2 ^ 600 := by
  have h1 : (1:ℤ) * 2 ^ 600 ≤ a * 2 ^ 600 :=
    mul_le_mul_of_nonneg_right (by omega) (by positivity)
  linarith

theorem side_hi (a b : ℤ) (hb : 0 < b) (ha : a < 2 ^ 600) : a < b * 2 ^ 600 := by
  have h1 : (1:ℤ) * 2 ^ 600 ≤ b * 2 ^ 600 :=
    mul_le_mul_of_nonneg_right (by omega) (by positivity)
  linarith

/-- The float32 value of `i / 1_000_000` for a sample index `1 ≤ i ≤ 9999` lies
in `[9e-7, 9.9991e-3]`. -/
theorem arrQ_bounds (i : ℕ) (h1 : 1 ≤ i) (h2 : i ≤ 9999) :
    9/10^7 ≤ fq (flRound 24 (i : ℤ) ((1000000 : ℕ) : ℤ)) ∧
      fq (flRound 24 (i : ℤ) ((1000000 : ℕ) : ℤ)) ≤ 99991/10^7 := by
  have hiZ : (1:ℤ) ≤ (i:ℤ) := by exact_mod_cast h1
  have hiZ2 : (i:ℤ) ≤ 9999 := by exact_mod_cast h2
  have hiQ : (1:ℚ) ≤ (i:ℚ) := by exact_mod_cast h1
  have hiQ2 : (i:ℚ) ≤ 9999 := by exact_mod_cast h2
  refine flRound_lit 24 (by norm_num) (i:ℤ) ((1000000:ℕ):ℤ) (by omega) (by norm_num)
    ?_ ?_ ?_ (1/10^6) (9999/10^6) (9/10^7) (99991/10^7) ?_ ?_ (by norm_num) (by norm_num)
  · apply side_lo _ _ (by omega)
    norm_num
  · apply side_hi _ _ (by norm_num)
    have h600 : (9999:ℤ) < 2 ^ 600 := by norm_num
    omega
  · have hstep : (2:ℤ) ^ (24 - 1) * ((1000000:ℕ):ℤ) ≤ 1 * 2 ^ FSCALE := by
      norm_num [FSCALE]
    have h3 : (1:ℤ) * 2 ^ FSCALE ≤ (i:ℤ) * 2 ^ FSCALE :=
      mul_le_mul_of_nonneg_right hiZ (by positivity)
    linarith
  · push_cast
    rw [le_div_iff₀ (by norm_num : (0:ℚ) < 1000000)]
    linarith
  · push_cast
    rw [div_le_iff₀ (by norm_num : (0:ℚ) < 1000000)]
    linarith

/-- Chunk-2 time step: adding `float32(0.01)` to the sample offset and rounding
to float32 yields a value in `[1.00005e-2, 1.99992e-2]`. -/
theorem tQ_bounds_c2 (A : ℤ) (hA1 : 9/10^7 ≤ fq A) (hA2 : fq A ≤ 99991/10^7) :
    1000089/10^8 ≤ fq (flRound 24 (F32M + A) ((2:ℤ) ^ FSCALE)) ∧
      fq (flRound 24 (F32M + A) ((2:ℤ) ^ FSCALE)) ≤ 199992/10^7 := by
  have hApos : 0 < A := fq_pos A (9/10^7) (by norm_num) hA1
  have hAlt : A < 2 ^ FSCALE := fq_lt_one A (lt_of_le_of_lt hA2 (by norm_num))
  have hAgeQ : (9/10^7 : ℚ) * 2 ^ FSCALE ≤ (A:ℚ) := fq_ge A _ hA1
  have hAleQ : (A:ℚ) ≤ (99991/10^7 : ℚ) * 2 ^ FSCALE := fq_le A _ hA2
  have hFpos : (0:ℤ) < F32M := by norm_num [F32M]
  have hFQ : ((F32M : ℤ) : ℚ) = 10737418 * 2 ^ 70 := by norm_num [F32M]
  refine flRound_lit 24 (by norm_num) (F32M + A) ((2:ℤ) ^ FSCALE) (by omega) (by positivity)
    ?_ ?_ ?_ (10737418/2^30 + 9/10^7) (10737418/2^30 + 99991/10^7)
    (1000089/10^8) (199992/10^7) ?_ ?_ (by norm_num) (by norm_num)
  · apply side_lo _ _ (by omega)
    norm_num [FSCALE]
  · apply side_hi _ _ (by positivity)
    have hF6 : F32M < 2 ^ 599 := by norm_num [F32M]
    have h6 : (2:ℤ) ^ FSCALE < 2 ^ 599 := by norm_num [FSCALE]
    have h7 : (2:ℤ) ^ 599 + 2 ^ 599 ≤ 2 ^ 600 := by norm_num
    omega
  · apply mul_le_mul_of_nonneg_right _ (by positivity)
    have h8 : (2:ℤ) ^ (24 - 1) ≤ F32M := by norm_num [F32M]
    omega
  · push_cast
    rw [le_div_iff₀ (by positivity : (0:ℚ) < (2:ℚ) ^ FSCALE)]
    rw [hFQ]
    norm_num [FSCALE] at hAgeQ ⊢
    linarith
  · push_cast
    rw [div_le_iff₀ (by positivity : (0:ℚ) < (2:ℚ) ^ FSCALE)]
    rw [hFQ]
    norm_num [FSCALE] at hAleQ ⊢
    linarith

/-- Chunk-1 time step: the start time is `0.0`, so the float32 time equals the
float32 of the sample offset, in `[8e-7, 9.9992e-3]`. -/
theorem tQ_bounds_c1 (A : ℤ) (hA1 : 9/10^7 ≤ fq A) (hA2 : fq A ≤ 99991/10^7) :
    8/10^7 ≤ fq (flRound 24 A ((2:ℤ) ^ FSCALE)) ∧
      fq (flRound 24 A ((2:ℤ) ^ FSCALE)) ≤ 99992/10^7 := by
  have hApos : 0 < A := fq_pos A (9/10^7) (by norm_num) hA1
  have hAlt : A < 2 ^ FSCALE := fq_lt_one A (lt_of_le_of_lt hA2 (by norm_num))
  have hAgeQ : (9/10^7 : ℚ) * 2 ^ FSCALE ≤ (A:ℚ) := fq_ge A _ hA1
  have hAleQ : (A:ℚ) ≤ (99991/10^7 : ℚ) * 2 ^ FSCALE := fq_le A _ hA2
  refine flRound_lit 24 (by norm_num) A ((2:ℤ) ^ FSCALE) hApos (by positivity)
    ?_ ?_ ?_ (9/10^7) (99991/10^7) (8/10^7) (99992/10^7) ?_ ?_
    (by norm_num) (by norm_num)
  · apply side_lo _ _ hApos
    norm_num [FSCALE]
  · apply side_hi _ _ (by positivity)
    have h6 : (2:ℤ) ^ FSCALE < 2 ^ 600 := by norm_num [FSCALE]
    omega
  · apply mul_le_mul_of_nonneg_right _ (by positivity)
    have h9 : ((2:ℚ) ^ (24 - 1) : ℚ) ≤ (9/10^7 : ℚ) * 2 ^ FSCALE := by
      norm_num [FSCALE]
    have h10 : ((2:ℚ) ^ (24 - 1) : ℚ) ≤ (A:ℚ) := le_trans h9 hAgeQ
    exact_mod_cast h10
  · push_cast
    rw [le_div_iff₀ (by positivity : (0:ℚ) < (2:ℚ) ^ FSCALE)]
    exact hAgeQ
  · push_cast
    rw [div_le_iff₀ (by positivity : (0:ℚ) < (2:ℚ) ^ FSCALE)]
    exact hAleQ

/-- Chunk-2 difference step: `t - 0.01` in binary64 lies in `[7e-7, 9.9993e-3]`
when `t` is in `[1.00005e-2, 1.99992e-2]`. -/
theorem d1Q_bounds_c2 (t : ℤ) (ht1 : 1000089/10^8 ≤ fq t) (ht2 : fq t ≤ 199992/10^7) :
    7/10^7 ≤ fq (fsub64 t M64) ∧ fq (fsub64 t M64) ≤ 99993/10^7 := by
  have hge := fq_ge t _ ht1
  have hle := fq_le t _ ht2
  have hMQ : ((M64 : ℤ) : ℚ) = 5764607523034235 * 2 ^ 41 := by norm_num [M64]
  have hgt : M64 < t := by
    have hMlt : ((M64:ℤ):ℚ) < (1000089/10^8 : ℚ) * 2 ^ FSCALE := by
      rw [hMQ]; norm_num [FSCALE]
    have := lt_of_lt_of_le hMlt hge
    exact_mod_cast this
  have hlt : t < 2 ^ FSCALE := fq_lt_one t (lt_of_le_of_lt ht2 (by norm_num))
  have hsub : fsub64 t M64 = flRound 53 (t - M64) ((2:ℤ) ^ FSCALE) := rfl
  rw [hsub]
  refine flRound_lit 53 (by norm_num) (t - M64) ((2:ℤ) ^ FSCALE) (by omega) (by positivity)
    ?_ ?_ ?_ (1000089/10^8 - 5764607523034235/2^59) (199992/10^7 - 5764607523034235/2^59)
    (7/10^7) (99993/10^7) ?_ ?_ (by norm_num) (by norm_num)
  · apply side_lo _ _ (by omega)
    norm_num [FSCALE]
  · apply side_hi _ _ (by positivity)
    have hMpos : (0:ℤ) < M64 := by norm_num [M64]
    have h6 : (2:ℤ) ^ FSCALE < 2 ^ 600 := by norm_num [FSCALE]
    omega
  · apply mul_le_mul_of_nonneg_right _ (by positivity)
    have h11 : ((2:ℚ) ^ (53 - 1) : ℚ) ≤ (t:ℚ) - ((M64:ℤ):ℚ) := by
      rw [hMQ]
      norm_num [FSCALE] at hge ⊢
      linarith
    have h12 : ((2:ℤ) ^ (53 - 1) : ℤ) ≤ t - M64 := by exact_mod_cast h11
    exact h12
  · push_cast
    rw [le_div_iff₀ (by positivity : (0:ℚ) < (2:ℚ) ^ FSCALE)]
    rw [hMQ]
    norm_num [FSCALE] at hge ⊢
    linarith
  · push_cast
    rw [div_le_iff₀ (by positivity : (0:ℚ) < (2:ℚ) ^ FSCALE)]
    rw [hMQ]
    norm_num [FSCALE] at hle ⊢
    linarith

/-- Chunk-1 difference step: `t - 0.0` is exact, and re-rounding keeps it in
`[7e-7, 9.9993e-3]`. -/
theorem d1Q_bounds_c1 (t : ℤ) (ht1 : 8/10^7 ≤ fq t) (ht2 : fq t ≤ 99992/10^7) :
    7/10^7 ≤ fq (fsub64 t 0) ∧ fq (fsub64 t 0) ≤ 99993/10^7 := by
  have hge := fq_ge t _ ht1
  have hle := fq_le t _ ht2
  have htpos : 0 < t := fq_pos t (8/10^7) (by norm_num) ht1
  have hlt : t < 2 ^ FSCALE := fq_lt_one t (lt_of_le_of_lt ht2 (by norm_num))
  have hsub : fsub64 t 0 = flRound 53 (t - 0) ((2:ℤ) ^ FSCALE) := rfl
  rw [hsub, sub_zero]
  refine flRound_lit 53 (by norm_num) t ((2:ℤ) ^ FSCALE) htpos (by positivity)
    ?_ ?_ ?_ (8/10^7) (99992/10^7) (7/10^7) (99993/10^7) ?_ ?_
    (by norm_num) (by norm_num)
  · apply side_lo _ _ htpos
    norm_num [FSCALE]
  · apply side_hi _ _ (by positivity)
    have h6 : (2:ℤ) ^ FSCALE < 2 ^ 600 := by norm_num [FSCALE]
    omega
  · apply mul_le_mul_of_nonneg_right _ (by positivity)
    have h9 : ((2:ℚ) ^ (53 - 1) : ℚ) ≤ (8/10^7 : ℚ) * 2 ^ FSCALE := by
      norm_num [FSCALE]
    have h10 : ((2:ℚ) ^ (53 - 1) : ℚ) ≤ (t:ℚ) := le_trans h9 hge
    exact_mod_cast h10
  · push_cast
    rw [le_div_iff₀ (by positivity : (0:ℚ) < (2:ℚ) ^ FSCALE)]
    exact hge
  · push_cast
    rw [div_le_iff₀ (by positivity : (0:ℚ) < (2:ℚ) ^ FSCALE)]
    exact hle

/-- Division-and-floor step: a binary64 value in `[7e-7, 9.9993e-3]` divided by
the binary64 `0.01` rounds to a quotient in `[0, 1)`, whose floor is `0`. -/
theorem d2_floor (d : ℤ) (h1 : 7/10^7 ≤ fq d) (h2 : fq d ≤ 99993/10^7) :
    ffloorI (fdiv64 d M64) = 0 := by
  have hdpos : 0 < d := fq_pos d (7/10^7) (by norm_num) h1
  have hge := fq_ge d _ h1
  have hle := fq_le d _ h2
  have hdlt : d < 2 ^ FSCALE := fq_lt_one d (lt_of_le_of_lt h2 (by norm_num))
  have hMpos : (0:ℤ) < M64 := by norm_num [M64]
  have hMQ : ((M64 : ℤ) : ℚ) = 5764607523034235 * 2 ^ 41 := by norm_num [M64]
  have hMQpos : (0:ℚ) < ((M64:ℤ):ℚ) := by exact_mod_cast hMpos
  have hdiv : fdiv64 d M64 = flRound 53 d M64 := by
    unfold fdiv64
    rw [if_pos (le_of_lt hMpos)]
  rw [hdiv]
  obtain ⟨hb1, hb2⟩ := flRound_bounds 53 (by norm_num) d M64 hdpos hMpos
    (side_lo _ _ hdpos (by norm_num [M64]))
    (side_hi _ _ hMpos (by
      have h6 : (2:ℤ) ^ FSCALE < 2 ^ 600 := by norm_num [FSCALE]
      omega))
    (by
      have hq : ((2:ℚ) ^ (53 - 1)) * ((M64:ℤ):ℚ) ≤ (d:ℚ) * 2 ^ FSCALE := by
        rw [hMQ]
        norm_num [FSCALE] at hge ⊢
        linarith
      exact_mod_cast hq)
  have hvpos : (0:ℚ) ≤ (d:ℚ) / ((M64:ℤ):ℚ) := by positivity
  have hFnonneg : 0 ≤ flRound 53 d M64 := by
    have h0 : (0:ℚ) ≤ fq (flRound 53 d M64) :=
      le_trans (mul_nonneg hvpos (by norm_num)) hb1
    rw [fq, le_div_iff₀ (by positivity : (0:ℚ) < (2:ℚ) ^ FSCALE), zero_mul] at h0
    exact_mod_cast h0
  have hFlt : flRound 53 d M64 < 2 ^ FSCALE := by
    apply fq_lt_one
    apply lt_of_le_of_lt hb2
    rw [div_mul_eq_mul_div, div_lt_one hMQpos, hMQ]
    norm_num [FSCALE] at hle ⊢
    linarith
  show Int.fdiv (flRound 53 d M64) (2 ^ FSCALE) = 0
  rw [Int.fdiv_eq_ediv _ (by positivity)]
  exact Int.ediv_eq_zero_of_lt hFnonneg hFlt

theorem f64OfRat_one_hundredth : f64OfRat 1 100 = M64 := by decide

theorem f64OfRat_two_hundredths : f64OfRat 2 100 = D64 := by decide

theorem f32_M64 : f32 M64 = F32M := by decide

theorem f32_zero : f32 0 = 0 := by decide

theorem fadd64_zero_M64 : fadd64 0 M64 = M64 := by decide

theorem fadd64_zero_zero : fadd64 0 0 = 0 := by decide

theorem fsub64_D64_M64 : fsub64 D64 M64 = M64 := by decide

theorem fsub64_M64_M64 : fsub64 M64 M64 = 0 := by decide

theorem fmul64_zero_left (B : ℤ) : fmul64 0 B = 0 := by
  show flRound 53 (0 * B) (2 ^ (2 * FSCALE)) = 0
  rw [zero_mul]
  rfl

/-- Sample count of each 0.01-second chunk at 1 MHz: `round(1e6 * 0.01) = 10000`
computed through the binary64 product. -/
theorem nz_value :
    rndHE (fmul64 (((1000000 : ℕ) : ℤ) * 2 ^ FSCALE) M64) (2 ^ FSCALE) = 10000 := by
  decide

theorem sampleKeyF_c1_zero : sampleKeyF 0 M64 1000000 0 = 0 := by decide

theorem sampleKeyF_c2_zero : sampleKeyF M64 M64 1000000 0 = 0 := by decide

/-- Every non-initial sample of the first chunk is binned at edge `0.0`. -/
theorem sampleKeyF_c1 (i : ℕ) (h1 : 1 ≤ i) (h2 : i ≤ 9999) :
    sampleKeyF 0 M64 1000000 i = 0 := by
  have hunfold : sampleKeyF 0 M64 1000000 i =
      fadd64 (fmul64 (ffloorI (fdiv64 (fsub64
          (flRound 24 (f32 0 + flRound 24 (i : ℤ) ((1000000 : ℕ) : ℤ)) ((2:ℤ) ^ FSCALE))
          0) M64) * 2 ^ FSCALE) M64) 0 := rfl
  rw [hunfold, f32_zero, zero_add]
  have harr := arrQ_bounds i h1 h2
  have ht := tQ_bounds_c1 (flRound 24 (i : ℤ) ((1000000 : ℕ) : ℤ)) harr.1 harr.2
  have hd1 := d1Q_bounds_c1
    (flRound 24 (flRound 24 (i : ℤ) ((1000000 : ℕ) : ℤ)) ((2:ℤ) ^ FSCALE)) ht.1 ht.2
  rw [d2_floor _ hd1.1 hd1.2, zero_mul, fmul64_zero_left]
  exact fadd64_zero_zero

/-- Every non-initial sample of the second chunk is binned at edge `0.01`:
the float32 time exceeds the float64 start `0.01`, so the floor is `0` and the
bin edge collapses back to the chunk start. -/
theorem sampleKeyF_c2 (i : ℕ) (h1 : 1 ≤ i) (h2 : i ≤ 9999) :
    sampleKeyF M64 M64 1000000 i = M64 := by
  have hunfold : sampleKeyF M64 M64 1000000 i =
      fadd64 (fmul64 (ffloorI (fdiv64 (fsub64
          (flRound 24 (f32 M64 + flRound 24 (i : ℤ) ((1000000 : ℕ) : ℤ)) ((2:ℤ) ^ FSCALE))
          M64) M64) * 2 ^ FSCALE) M64) M64 := rfl
  rw [hunfold, f32_M64]
  have harr := arrQ_bounds i h1 h2
  have ht := tQ_bounds_c2 (flRound 24 (i : ℤ) ((1000000 : ℕ) : ℤ)) harr.1 harr.2
  have hd1 := d1Q_bounds_c2
    (flRound 24 (F32M + flRound 24 (i : ℤ) ((1000000 : ℕ) : ℤ)) ((2:ℤ) ^ FSCALE)) ht.1 ht.2
  rw [d2_floor _ hd1.1 hd1.2, zero_mul, fmul64_zero_left]
  exact fadd64_zero_M64

/-- One unfolding step of the per-slice grouping loop. -/
theorem chunkKeysGoF_step (T0 Bin : ℤ) (rate : ℕ) (i n : ℕ) (acc : List ℤ) :
    chunkKeysGoF T0 Bin rate i (n + 1) acc
      = chunkKeysGoF T0 Bin rate (i + 1) n (insKeyF (sampleKeyF T0 Bin rate i) acc) := rfl

/-- If every key inserted by a window of the grouping loop is already absorbed
by the accumulator, the accumulator is unchanged. -/
theorem chunkKeysGoF_absorbed (T0 Bin : ℤ) (rate : ℕ) (acc : List ℤ) :
    ∀ n i, (∀ j, i ≤ j → j < i + n → insKeyF (sampleKeyF T0 Bin rate j) acc = acc) →
      chunkKeysGoF T0 Bin rate i n acc = acc := by
  intro n
  induction n with
  | zero => intro i _; rfl
  | succ m ih =>
    intro i h
    rw [chunkKeysGoF_step, h i (le_refl i) (by omega)]
    exact ih (i + 1) (fun j hj1 hj2 => h j (by omega) (by omega))

/-- The first chunk's 10000 samples produce the single bin edge `0.0`. -/
theorem chunkKeysF_chunk1 : chunkKeysF 0 M64 1000000 10000 = [0] := by
  have h0 : chunkKeysF 0 M64 1000000 10000
      = chunkKeysGoF 0 M64 1000000 0 10000 [] := rfl
  rw [h0, show (10000:ℕ) = 9999 + 1 by norm_num, chunkKeysGoF_step, sampleKeyF_c1_zero]
  have h1 : insKeyF (0:ℤ) [] = [0] := rfl
  rw [h1]
  apply chunkKeysGoF_absorbed
  intro j hj1 hj2
  rw [sampleKeyF_c1 j (by omega) (by omega)]
  rfl

/-- The second chunk's 10000 samples produce the two bin edges `0.0` and
`0.01`: its first sample has float32 time below `0.01` and falls in the
previous bin. -/
theorem chunkKeysF_chunk2 : chunkKeysF M64 M64 1000000 10000 = [0, M64] := by
  have h0 : chunkKeysF M64 M64 1000000 10000
      = chunkKeysGoF M64 M64 1000000 0 10000 [] := rfl
  rw [h0, show (10000:ℕ) = 9999 + 1 by norm_num, chunkKeysGoF_step, sampleKeyF_c2_zero]
  have h1 : insKeyF (0:ℤ) [] = [0] := rfl
  rw [h1, show (9999:ℕ) = 9998 + 1 by norm_num, chunkKeysGoF_step]
  rw [sampleKeyF_c2 (0 + 1) (by norm_num) (by norm_num)]
  have h2 : insKeyF M64 [0] = [0, M64] := by decide
  rw [h2]
  apply chunkKeysGoF_absorbed
  intro j hj1 hj2
  rw [sampleKeyF_c2 j (by omega) (by omega)]
  decide

/-- One unfolding step of the float chunk loop. -/
theorem runTimesLoopF_succ (rate : ℕ) (Bin Chunk : ℤ) (fuel : ℕ) (T0 rem : ℤ)
    (acc : List ℤ) :
    runTimesLoopF rate Bin Chunk (fuel + 1) T0 rem acc =
      if 0 < rem then
        if rndHE (fmul64 ((rate : ℤ) * 2 ^ FSCALE) (if Chunk ≤ rem then Chunk else rem))
            (2 ^ FSCALE) ≤ 0 then
          runTimesLoopF rate Bin Chunk fuel (fadd64 T0 (if Chunk ≤ rem then Chunk else rem))
            (fsub64 rem (if Chunk ≤ rem then Chunk else rem)) acc
        else
          runTimesLoopF rate Bin Chunk fuel (fadd64 T0 (if Chunk ≤ rem then Chunk else rem))
            (fsub64 rem (if Chunk ≤ rem then Chunk else rem))
            (acc ++ chunkKeysF T0 Bin rate
              (rndHE (fmul64 ((rate : ℤ) * 2 ^ FSCALE) (if Chunk ≤ rem then Chunk else rem))
                (2 ^ FSCALE)).toNat)
      else some acc := rfl

/-- The float chunk loop halts with its accumulator once nothing remains. -/
theorem runTimesLoopF_done (rate : ℕ) (Bin Chunk : ℤ) (fuel : ℕ) (T0 : ℤ)
    (acc : List ℤ) :
    runTimesLoopF rate Bin Chunk fuel T0 0 acc = some acc := by
  cases fuel with
  | zero => rfl
  | succ k => rw [runTimesLoopF_succ, if_neg (by norm_num)]

/-- C5: modelled in the exact binary32/binary64 semantics of the source, running
the orchestrator with rate = 1 000 000 Hz, duration = 0.02 s, bin width = 0.01 s
and chunk width = 0.01 s yields, in every one of the four category tables, THREE
rows with time column `[0.0, 0.0, 0.01]` — not the two rows `[0.0, 0.01]` the
specification promises.  The second chunk's first sample has float32 time
`0.00999999977…` which is strictly below the float64 chunk start `0.01`, so it
is binned at edge `0.0` and the second chunk contributes two bins. -/
theorem C5_float_three_bins (fuel : ℕ) (hf : 2 ≤ fuel) :
    runTimesF 1000000 (f64OfRat 2 100) (f64OfRat 1 100) (f64OfRat 1 100) fuel
      = some [0, 0, f64OfRat 1 100] := by
  obtain ⟨k, rfl⟩ : ∃ k, fuel = k + 2 := ⟨fuel - 2, by omega⟩
  rw [f64OfRat_two_hundredths, f64OfRat_one_hundredth]
  unfold runTimesF
  rw [show k + 2 = k + 1 + 1 by omega]
  rw [runTimesLoopF_succ]
  rw [if_pos (show (0:ℤ) < D64 by decide)]
  have hcur1 : (if M64 ≤ D64 then M64 else D64) = M64 := if_pos (by decide)
  rw [hcur1, nz_value]
  rw [if_neg (show ¬ ((10000:ℤ) ≤ 0) by decide)]
  rw [show ((10000:ℤ)).toNat = 10000 from rfl]
  rw [chunkKeysF_chunk1, fadd64_zero_M64, fsub64_D64_M64, List.nil_append]
  rw [runTimesLoopF_succ]
  rw [if_pos (show (0:ℤ) < M64 by decide)]
  have hcur2 : (if M64 ≤ M64 then M64 else M64) = M64 := if_pos (le_refl M64)
  rw [hcur2, nz_value]
  rw [if_neg (show ¬ ((10000:ℤ) ≤ 0) by decide)]
  rw [show ((10000:ℤ)).toNat = 10000 from rfl]
  rw [chunkKeysF_chunk2, fsub64_M64_M64]
  rw [runTimesLoopF_done]
  decide

/-- Witness for C5: the divergence is reached at the minimal fuel. -/
theorem C5_float_three_bins_witness :
    runTimesF 1000000 (f64OfRat 2 100) (f64OfRat 1 100) (f64OfRat 1 100) 2
      = some [0, 0, f64OfRat 1 100] :=
  C5_float_three_bins 2 (le_refl 2)
